import Mathlib

/-!
# Verification of `checkpoints_manager.py`

A shallow embedding of the `CheckpointsManager` class.  The filesystem is
modelled as a tree of named entries (`FSNode`), paths as lists of segments
relative to the experiment directory, and each Python method as a Lean
function over an explicit `Manager` state.  Python exceptions are modelled
by an `Err` code; methods that mutate state return the partially updated
state together with an optional error (the exception propagating out of the
method), while read-only methods return `Except Err`.

String handling follows Python: `sorted` compares strings by code points
(modelled by `lexLe` / `strLe` and an insertion sort `sortStr`), `int(s)`
parses an optionally signed digit string (`pyInt?`), and `f'{n:02d}'`
zero-pads to width two (`pad2` / `pyFormat02`).
-/

/-- Contents of a checkpoint file (an opaque serialized blob). -/
abbrev Blob := Nat

/-- A node of the directory tree rooted at the experiment directory. -/
inductive FSNode where
  | file (content : Blob)
  | dir (entries : List (String × FSNode))
  deriving Repr

/-- Python string comparison on code points (lexicographic on `List Char`). -/
def lexLe : List Char → List Char → Bool
  | [], _ => true
  | _ :: _, [] => false
  | a :: as, b :: bs =>
    if a.toNat < b.toNat then true
    else if b.toNat < a.toNat then false
    else lexLe as bs

/-- Python `s1 <= s2` on strings. -/
def strLe (a b : String) : Bool := lexLe a.data b.data

/-- Stable insertion into a `strLe`-sorted list. -/
def insertSorted (a : String) : List String → List String
  | [] => [a]
  | b :: bs => if strLe a b then a :: b :: bs else b :: insertSorted a bs

/-- Python `sorted` on a list of strings (code-point lexicographic order). -/
def sortStr : List String → List String
  | [] => []
  | a :: as => insertSorted a (sortStr as)

/-- `sorted(xs)[-1]`: the last element of the sorted list. -/
def lastSorted (xs : List String) : String := (sortStr xs).getLastD ""

/-- Python `f'{n:02d}'` for a natural number: zero-pad to width two. -/
def pad2 (n : Nat) : String := if n < 10 then "0" ++ toString n else toString n

/-- Python `f'{i:02d}'` for an arbitrary integer. -/
def pyFormat02 (i : Int) : String :=
  if 0 ≤ i then pad2 i.toNat else "-" ++ toString (-i).toNat

/-- Python `int(l)` on a digit list. -/
def digitsToNat (l : List Char) : Nat := l.foldl (fun n c => n * 10 + (c.toNat - 48)) 0

/-- Python `int(s)`: parse an optionally `-`-signed digit string, `none` on `ValueError`. -/
def pyInt? (s : String) : Option Int :=
  match s.data with
  | [] => none
  | '-' :: rest =>
    if rest ≠ [] ∧ rest.all (·.isDigit) then some (-(digitsToNat rest : Int)) else none
  | l => if l.all (·.isDigit) then some (digitsToNat l : Int) else none

/-- Python `s.split('.')[0]`: the characters before the first `'.'`. -/
def splitDotHead (s : String) : String := String.mk (s.data.takeWhile (· != '.'))

/-- Python `s.split('_')[-1]`: the characters after the last `'_'`. -/
def splitUnderscoreLast (s : String) : String :=
  String.mk ((s.data.reverse.takeWhile (· != '_')).reverse)

/-- The checkpoint file name `f'{epoch:02d}.pth'`. -/
def epochFileName (epoch : Int) : String := pyFormat02 epoch ++ ".pth"

/-- The run directory name `f'run_{index:02d}'`. -/
def runDirName (index : Int) : String := "run_" ++ pyFormat02 index

/-- Look a name up in a directory's entry list. -/
def lookupEntry (es : List (String × FSNode)) (n : String) : Option FSNode :=
  (es.find? (fun p => p.1 = n)).map (·.2)

/-- Replace the binding of `n` in place, or append it if absent. -/
def setEntry : List (String × FSNode) → String → FSNode → List (String × FSNode)
  | [], n, v => [(n, v)]
  | (k, w) :: rest, n, v =>
    if k = n then (n, v) :: rest else (k, w) :: setEntry rest n v

/-- `os.listdir` on the root node (the entry names, in directory order). -/
def FSNode.listNames : FSNode → List String
  | .file _ => []
  | .dir es => es.map Prod.fst

/-- Resolve a path (list of segments) to the node it denotes, if any. -/
def resolve : List String → FSNode → Option FSNode
  | [], fs => some fs
  | _ :: _, FSNode.file _ => none
  | n :: rest, FSNode.dir es =>
    match lookupEntry es n with
    | some child => resolve rest child
    | none => none

/-- `os.path.isdir`. -/
def isDirB (fs : FSNode) (p : List String) : Bool :=
  match resolve p fs with
  | some (FSNode.dir _) => true
  | _ => false

/-- Read the blob stored at a file path, if present. -/
def readFile? (p : List String) (fs : FSNode) : Option Blob :=
  match resolve p fs with
  | some (FSNode.file c) => some c
  | _ => none

/-- `torch.save(blob, path)`: overwrite or create the file at `p`.  Fails
(`none`) when a parent directory is missing, a parent is a file, or the
target is an existing directory. -/
def writeFile : List String → Blob → FSNode → Option FSNode
  | [], _, _ => none
  | [n], c, FSNode.dir es =>
    match lookupEntry es n with
    | some (FSNode.dir _) => none
    | _ => some (FSNode.dir (setEntry es n (FSNode.file c)))
  | n :: rest, c, FSNode.dir es =>
    match lookupEntry es n with
    | some child => (writeFile rest c child).map (fun c' => FSNode.dir (setEntry es n c'))
    | none => none
  | _ :: _, _, FSNode.file _ => none

/-- Python exceptions surfaced by the manager's methods. -/
inductive Err where
  | nameError
  | notADirectory
  | fileExists
  | fileNotFound
  | valueError
  | writeError
  deriving Repr, DecidableEq

/-- `os.makedirs(p)` (with `exist_ok=False`): create every missing directory
along `p`, failing if the leaf already exists or a segment is a file.  The
returned node keeps whatever was created before the failure point. -/
def mkdirs : List String → FSNode → FSNode × Option Err
  | [], fs => (fs, some Err.fileNotFound)
  | [n], FSNode.dir es =>
    match lookupEntry es n with
    | some _ => (FSNode.dir es, some Err.fileExists)
    | none => (FSNode.dir (setEntry es n (FSNode.dir [])), none)
  | n :: rest, FSNode.dir es =>
    match lookupEntry es n with
    | some (FSNode.dir ces) =>
      let r := mkdirs rest (FSNode.dir ces)
      (FSNode.dir (setEntry es n r.1), r.2)
    | some (FSNode.file _) => (FSNode.dir es, some Err.notADirectory)
    | none =>
      let r := mkdirs rest (FSNode.dir [])
      (FSNode.dir (setEntry es n r.1), r.2)
  | _ :: _, FSNode.file c => (FSNode.file c, some Err.notADirectory)

/-- The mutable state of a `CheckpointsManager` instance.  `modules` lists the
tracked component names in registration order; the component objects
themselves are external (their `state_dict`/`load_state_dict` hooks are
passed to `save_checkpoint` / recorded by `load_last_checkpoint`). -/
structure Manager where
  modules : List String
  epochs_per_run : Nat
  start_epoch : Int
  current_run_dir_path : List String
  deriving Repr, DecidableEq

/-- Result of a state-mutating method: the updated manager and filesystem,
and the exception that escaped the method, if any. -/
structure StepResult where
  manager : Manager
  fs : FSNode
  err : Option Err
  deriving Repr

/-- `get_checkpoint_module_path(name, epoch)`. -/
def get_checkpoint_module_path (m : Manager) (name : String) (epoch : Int) : List String :=
  m.current_run_dir_path ++ [name, epochFileName epoch]

/-- `get_number_of_runs`: the number of entries (of any kind) under the root. -/
def get_number_of_runs (_m : Manager) (fs : FSNode) : Nat :=
  fs.listNames.length

/-- `get_start_epoch`. -/
def get_start_epoch (m : Manager) : Int := m.start_epoch

/-- `get_current_run_dir_path(slef)`: the source names its parameter `slef`
but its body reads `self`, an undefined name, so every call raises
`NameError` instead of returning the current run directory path. -/
def get_current_run_dir_path ( slef : Manager) : Except Err (List String) :=
  Except.error Err.nameError

/-- `get_run_index_from_path`: parse `int(basename.split('_')[-1])`. -/
def get_run_index_from_path (p : List String) : Option Int :=
  pyInt? (splitUnderscoreLast (p.getLastD ""))

/-- `os.makedirs` for each tracked component's sub-directory, in order. -/
def mkdirsAll : List String → String → FSNode → FSNode × Option Err
  | [], _, fs => (fs, none)
  | n :: rest, run, fs =>
    let r := mkdirs [run, n] fs
    match r.2 with
    | some e => (r.1, some e)
    | none => mkdirsAll rest run r.1

/-- `make_run_dir(index)`: create the run directory and one sub-directory per
tracked component, then set the cursor to epoch 0 of that run.  On failure
the cursor fields are left untouched (the exception fires before they are
assigned). -/
def make_run_dir (m : Manager) (fs : FSNode) (index : Int) : StepResult :=
  let runName := runDirName index
  let r1 := mkdirs [runName] fs
  match r1.2 with
  | some e => ⟨m, r1.1, some e⟩
  | none =>
    let r2 := mkdirsAll m.modules runName r1.1
    match r2.2 with
    | some e => ⟨m, r2.1, some e⟩
    | none =>
      ⟨{ m with start_epoch := 0, current_run_dir_path := [runName] }, r2.1, none⟩

/-- Body of `_get_last_epoch_index` once the directory's entries are listed:
sort the file names, take the last, parse the part before the first `'.'`;
`-1` for an empty directory. -/
def dirLastEpoch (es : List (String × FSNode)) : Except Err Int :=
  let checkpoints := sortStr (es.map Prod.fst)
  if checkpoints.length = 0 then Except.ok (-1)
  else
    match pyInt? (splitDotHead (checkpoints.getLastD "")) with
    | some n => Except.ok n
    | none => Except.error Err.valueError

/-- `_get_last_epoch_index(dir_path)`: raises `NotADirectoryError` when the
path is not a directory. -/
def priv_get_last_epoch_index (fs : FSNode) (p : List String) : Except Err Int :=
  match resolve p fs with
  | some (FSNode.dir es) => dirLastEpoch es
  | _ => Except.error Err.notADirectory

/-- `get_last_epoch_index(run_dir_path)`: the minimum of the last epoch
indices of the three fixed sub-directories `model`, `optimizer`,
`scheduler` (the tracked component names play no part). -/
def get_last_epoch_index (_m : Manager) (fs : FSNode) (p : List String) : Except Err Int := do
  let a ← priv_get_last_epoch_index fs (p ++ ["model"])
  let b ← priv_get_last_epoch_index fs (p ++ ["optimizer"])
  let c ← priv_get_last_epoch_index fs (p ++ ["scheduler"])
  pure (min a (min b c))

/-- `is_checkpoint_dir_full`. -/
def is_checkpoint_dir_full (m : Manager) (fs : FSNode) (p : List String) : Except Err Bool := do
  let lastEpoch ← get_last_epoch_index m fs p
  pure (lastEpoch = (m.epochs_per_run : Int) - 1)

/-- `is_run_completed`. -/
def is_run_completed (m : Manager) (fs : FSNode) (p : List String) : Except Err Bool := do
  let b ← is_checkpoint_dir_full m fs p
  pure (if b then true else false)

/-- `get_last_run_dir_path`: the lexicographically last entry of the root. -/
def get_last_run_dir_path (_m : Manager) (fs : FSNode) : List String :=
  [lastSorted fs.listNames]

/-- `scan_experiment_dir`. -/
def scan_experiment_dir (m : Manager) (fs : FSNode) : StepResult :=
  if get_number_of_runs m fs = 0 then
    make_run_dir m fs 0
  else
    let lastPath := get_last_run_dir_path m fs
    match is_run_completed m fs lastPath with
    | Except.error e => ⟨m, fs, some e⟩
    | Except.ok true =>
      match get_run_index_from_path lastPath with
      | none => ⟨m, fs, some Err.valueError⟩
      | some idx => make_run_dir m fs (idx + 1)
    | Except.ok false =>
      match get_last_epoch_index m fs lastPath with
      | Except.error e => ⟨m, fs, some e⟩
      | Except.ok lastEpoch =>
        ⟨{ m with current_run_dir_path := lastPath, start_epoch := lastEpoch + 1 }, fs, none⟩

/-- The write loop of `save_checkpoint`: for each tracked component in
registration order, obtain its blob from the save hook (`states`) and write
it at the current epoch's path.  `writeFails n = true` models the save hook
or `torch.save` raising for component `n`; a structurally impossible write
(missing run or component directory) raises as well.  The first exception
aborts the loop, keeping the files already written. -/
def writeModules : List String → Manager → FSNode → (String → Blob) → (String → Bool) →
    FSNode × Option Err
  | [], _, fs, _, _ => (fs, none)
  | n :: rest, m, fs, states, writeFails =>
    if writeFails n then (fs, some Err.writeError)
    else
      match writeFile (get_checkpoint_module_path m n m.start_epoch) (states n) fs with
      | none => (fs, some Err.fileNotFound)
      | some fs1 => writeModules rest m fs1 states writeFails

/-- `save_checkpoint`: write every component's blob for the current epoch,
then advance the cursor; when the advanced epoch equals the budget, start
the next run via `make_run_dir`.  The cursor advances only after the whole
write loop has succeeded. -/
def save_checkpoint (m : Manager) (fs : FSNode) (states : String → Blob)
    (writeFails : String → Bool) : StepResult :=
  let r := writeModules m.modules m fs states writeFails
  match r.2 with
  | some e => ⟨m, r.1, some e⟩
  | none =>
    let m1 := { m with start_epoch := m.start_epoch + 1 }
    if m1.start_epoch = (m.epochs_per_run : Int) then
      match get_run_index_from_path m.current_run_dir_path with
      | none => ⟨m1, r.1, some Err.valueError⟩
      | some idx => make_run_dir m1 r.1 (idx + 1)
    else ⟨m1, r.1, none⟩

/-- Result of `load_last_checkpoint`: `loads` records, in order, each
`(component name, blob)` pair fed to that component's `load_state_dict`
hook. -/
structure LoadResult where
  manager : Manager
  fs : FSNode
  loads : List (String × Blob)
  err : Option Err
  deriving Repr

/-- The load loop of `load_last_checkpoint`: read each component's blob for
epoch `start_epoch - 1` and feed it to the component's load hook. -/
def loadModules : List String → Manager → FSNode → List (String × Blob) × Option Err
  | [], _, _ => ([], none)
  | n :: rest, m, fs =>
    match readFile? (get_checkpoint_module_path m n (m.start_epoch - 1)) fs with
    | none => ([], some Err.fileNotFound)
    | some c =>
      let r := loadModules rest m fs
      ((n, c) :: r.1, r.2)

/-- `load_last_checkpoint`: re-scan the experiment directory, then, unless
the (recomputed) start epoch is 0, load every tracked component's
checkpoint of epoch `start_epoch - 1`. -/
def load_last_checkpoint (m : Manager) (fs : FSNode) : LoadResult :=
  let r := scan_experiment_dir m fs
  match r.err with
  | some e => ⟨r.manager, r.fs, [], some e⟩
  | none =>
    if r.manager.start_epoch = 0 then ⟨r.manager, r.fs, [], none⟩
    else
      let l := loadModules r.manager.modules r.manager r.fs
      ⟨r.manager, r.fs, l.1, l.2⟩

/-- A component directory holding one checkpoint file per listed
`(epoch, blob)` pair. -/
def mkCompDir (l : List (Nat × Blob)) : FSNode :=
  FSNode.dir (l.map (fun ec => (epochFileName (ec.1 : Int), FSNode.file ec.2)))

/-- The highest epoch index recorded in a component directory built by
`mkCompDir`: `-1` when empty, otherwise the maximum listed epoch. -/
def hiIdx (l : List (Nat × Blob)) : Int :=
  match l with
  | [] => -1
  | _ => ((l.map Prod.fst).foldr max 0 : Nat)

/-- `true` when `_get_last_epoch_index` raises `ValueError` at `p` (the
lexicographically last file name of the directory does not parse as an
integer). -/
def isValueErrB (fs : FSNode) (p : List String) : Bool :=
  match priv_get_last_epoch_index fs p with
  | Except.error Err.valueError => true
  | _ => false

/-! ## Concrete instances used by the claims -/

/-- A manager tracking `model` and `optimizer` only (budget 3). -/
def exMgrMO : Manager := ⟨["model", "optimizer"], 3, 0, []⟩

/-- A manager tracking `model`, `optimizer` and `scheduler` (budget 3). -/
def exMgrMOS : Manager := ⟨["model", "optimizer", "scheduler"], 3, 0, []⟩

/-- A manager tracking only `model` (budget 3). -/
def exMgrM : Manager := ⟨["model"], 3, 0, []⟩

/-- A manager tracking only `encoder` (budget 3). -/
def exMgrEnc : Manager := ⟨["encoder"], 3, 0, []⟩

/-- The manager state produced by scanning `exFsSched`: cursor at epoch 2 of
run 0 (in sync with that tree). -/
def exMgrSync : Manager := ⟨["model", "optimizer", "scheduler"], 3, 2, ["run_00"]⟩

/-- The spec's resume example taken literally: run 0 holds epochs 0-2 for
`model` and 0-1 for `optimizer`, and nothing else. -/
def exFsNoSched : FSNode := FSNode.dir [("run_00", FSNode.dir
  [("model", mkCompDir [(0, 10), (1, 11), (2, 12)]),
   ("optimizer", mkCompDir [(0, 20), (1, 21)])])]

/-- The resume example completed with a `scheduler` directory holding
epochs 0-1. -/
def exFsSched : FSNode := FSNode.dir [("run_00", FSNode.dir
  [("model", mkCompDir [(0, 10), (1, 11), (2, 12)]),
   ("optimizer", mkCompDir [(0, 20), (1, 21)]),
   ("scheduler", mkCompDir [(0, 30), (1, 31)])])]

/-- Run 0 with the final-epoch file (budget 3) present for `model` but the
`optimizer` and `scheduler` directories empty. -/
def exFsC4 : FSNode := FSNode.dir [("run_00", FSNode.dir
  [("model", mkCompDir [(2, 5)]), ("optimizer", mkCompDir []),
   ("scheduler", mkCompDir [])])]

/-- A complete run 0 (budget 3) for the three fixed component names. -/
def exFsFull : FSNode := FSNode.dir [("run_00", FSNode.dir
  [("model", mkCompDir [(0, 1), (1, 2), (2, 3)]),
   ("optimizer", mkCompDir [(0, 4), (1, 5), (2, 6)]),
   ("scheduler", mkCompDir [(0, 7), (1, 8), (2, 9)])])]

/-- Run 0 containing only an `encoder` component directory with its final
epoch saved. -/
def exFsEnc : FSNode := FSNode.dir [("run_00", FSNode.dir
  [("encoder", mkCompDir [(2, 5)])])]

/-- A root whose only run directory is empty. -/
def exFsEmptyRun : FSNode := FSNode.dir [("run_00", FSNode.dir [])]

/-- A root whose single entry is named `run_-1` and holds a complete run
(budget 3): its parsed index is `-1`, so a completed scan creates run 0
even though the root is not empty. -/
def exFsNeg : FSNode := FSNode.dir [("run_-1", FSNode.dir
  [("model", mkCompDir [(2, 1)]), ("optimizer", mkCompDir [(2, 1)]),
   ("scheduler", mkCompDir [(2, 1)])])]

/-! ## Order lemmas for the code-point comparison -/

theorem char_toNat_inj {a b : Char} (h : a.toNat = b.toNat) : a = b := by
  cases a; cases b
  simp only [Char.toNat] at h
  congr 1
  exact UInt32.toNat.inj h

theorem lexLe_refl (l : List Char) : lexLe l l = true := by
  induction l with
  | nil => rfl
  | cons a as ih => simp [lexLe, ih]

theorem lexLe_total (a b : List Char) : lexLe a b = true ∨ lexLe b a = true := by
  induction a generalizing b with
  | nil => exact Or.inl rfl
  | cons x xs ih =>
    cases b with
    | nil => exact Or.inr rfl
    | cons y ys =>
      simp only [lexLe]
      by_cases h1 : x.toNat < y.toNat
      · simp [h1]
      · by_cases h2 : y.toNat < x.toNat
        · simp [h1, h2]
        · simpa [h1, h2] using ih ys

theorem lexLe_trans {a b c : List Char} (h1 : lexLe a b = true) (h2 : lexLe b c = true) :
    lexLe a c = true := by
  induction a generalizing b c with
  | nil => rfl
  | cons x xs ih =>
    cases b with
    | nil => simp [lexLe] at h1
    | cons y ys =>
      cases c with
      | nil => simp [lexLe] at h2
      | cons z zs =>
        simp only [lexLe] at h1 h2 ⊢
        split_ifs at h1 h2 ⊢ with hxy hyx hyz hzy hxz hzx <;>
          first
          | rfl
          | omega
          | cases h1
          | cases h2
          | exact ih h1 h2

theorem lexLe_antisymm {a b : List Char} (h1 : lexLe a b = true) (h2 : lexLe b a = true) :
    a = b := by
  induction a generalizing b with
  | nil =>
    cases b with
    | nil => rfl
    | cons y ys => simp [lexLe] at h2
  | cons x xs ih =>
    cases b with
    | nil => simp [lexLe] at h1
    | cons y ys =>
      simp only [lexLe] at h1 h2
      split_ifs at h1 h2 with hxy hyx <;> first
      | omega
      | cases h1
      | cases h2
      | (have hx : x = y := char_toNat_inj (by omega)
         rw [hx, ih h1 h2])

theorem strLe_refl (a : String) : strLe a a = true := lexLe_refl a.data

theorem strLe_total (a b : String) : strLe a b = true ∨ strLe b a = true :=
  lexLe_total a.data b.data

theorem strLe_trans {a b c : String} (h1 : strLe a b = true) (h2 : strLe b c = true) :
    strLe a c = true := lexLe_trans h1 h2

theorem strLe_antisymm {a b : String} (h1 : strLe a b = true) (h2 : strLe b a = true) :
    a = b := by
  cases a; cases b
  exact congrArg String.mk (lexLe_antisymm h1 h2)

/-! ## Sorting lemmas -/

theorem mem_insertSorted {a b : String} {l : List String} :
    b ∈ insertSorted a l ↔ b = a ∨ b ∈ l := by
  induction l with
  | nil => simp [insertSorted]
  | cons c cs ih =>
    simp only [insertSorted]
    split
    · simp [List.mem_cons]
    · simp only [List.mem_cons, ih]
      tauto

theorem insertSorted_ne_nil (a : String) (l : List String) : insertSorted a l ≠ [] := by
  cases l with
  | nil => simp [insertSorted]
  | cons b bs =>
    simp only [insertSorted]
    split <;> simp

theorem sortStr_ne_nil {l : List String} (h : l ≠ []) : sortStr l ≠ [] := by
  cases l with
  | nil => exact absurd rfl h
  | cons a as => exact insertSorted_ne_nil a (sortStr as)

theorem pairwise_insertSorted {a : String} {l : List String}
    (h : l.Pairwise (fun x y => strLe x y = true)) :
    (insertSorted a l).Pairwise (fun x y => strLe x y = true) := by
  induction l with
  | nil => simp [insertSorted]
  | cons b bs ih =>
    rcases List.pairwise_cons.mp h with ⟨hb, hbs⟩
    simp only [insertSorted]
    split
    · rename_i hab
      refine List.pairwise_cons.mpr ⟨?_, h⟩
      intro y hy
      rcases List.mem_cons.mp hy with rfl | hy
      · exact hab
      · exact strLe_trans hab (hb y hy)
    · rename_i hab
      have hba : strLe b a = true := by
        rcases strLe_total a b with h' | h'
        · exact absurd h' hab
        · exact h'
      refine List.pairwise_cons.mpr ⟨?_, ih hbs⟩
      intro y hy
      rcases mem_insertSorted.mp hy with rfl | hy
      · exact hba
      · exact hb y hy

theorem pairwise_sortStr (l : List String) :
    (sortStr l).Pairwise (fun x y => strLe x y = true) := by
  induction l with
  | nil => simp [sortStr]
  | cons a as ih => exact pairwise_insertSorted ih

theorem mem_sortStr {a : String} {l : List String} : a ∈ sortStr l ↔ a ∈ l := by
  induction l with
  | nil => simp [sortStr]
  | cons b bs ih => simp [sortStr, mem_insertSorted, ih]

theorem getLastD_mem {α : Type} {l : List α} (h : l ≠ []) (d : α) : l.getLastD d ∈ l := by
  induction l generalizing d with
  | nil => exact absurd rfl h
  | cons a as ih =>
    rw [List.getLastD_cons]
    cases as with
    | nil => simp [List.getLastD]
    | cons b bs => exact List.mem_cons_of_mem a (ih (by simp) a)

theorem le_getLastD_of_pairwise {l : List String}
    (hp : l.Pairwise (fun x y => strLe x y = true)) :
    ∀ d, ∀ y ∈ l, strLe y (l.getLastD d) = true := by
  induction l with
  | nil => simp
  | cons a as ih =>
    rcases List.pairwise_cons.mp hp with ⟨ha, has⟩
    intro d y hy
    rw [List.getLastD_cons]
    rcases List.mem_cons.mp hy with rfl | hy
    · cases as with
      | nil => exact strLe_refl y
      | cons b bs =>
        exact ha _ (getLastD_mem (by simp) y)
    · exact ih has a y hy

theorem lastSorted_mem {xs : List String} (h : xs ≠ []) : lastSorted xs ∈ xs :=
  mem_sortStr.mp (getLastD_mem (sortStr_ne_nil h) "")

theorem le_lastSorted {xs : List String} (h : xs ≠ []) :
    ∀ y ∈ xs, strLe y (lastSorted xs) = true := fun y hy =>
  le_getLastD_of_pairwise (pairwise_sortStr xs) "" y (mem_sortStr.mpr hy)

theorem lastSorted_eq {xs : List String} {y : String} (hmem : y ∈ xs)
    (hmax : ∀ z ∈ xs, strLe z y = true) : lastSorted xs = y := by
  have hne : xs ≠ [] := by
    intro h; rw [h] at hmem; cases hmem
  exact strLe_antisymm (hmax _ (lastSorted_mem hne)) (le_lastSorted hne y hmem)

/-! ## Facts about the zero-padded naming scheme (epochs and run indices
below 100, where lexicographic and numeric order coincide) -/

set_option maxRecDepth 10000 in
set_option maxHeartbeats 1000000 in
theorem epochFileName_le_iff : ∀ a b : Fin 100,
    ((strLe (epochFileName (a.val : Int)) (epochFileName (b.val : Int)) = true) ↔
      a.val ≤ b.val) := by decide

set_option maxRecDepth 10000 in
set_option maxHeartbeats 1000000 in
theorem parse_epochFileName : ∀ e : Fin 100,
    pyInt? (splitDotHead (epochFileName (e.val : Int))) = some (e.val : Int) := by decide

set_option maxRecDepth 10000 in
set_option maxHeartbeats 1000000 in
theorem parse_runDirName : ∀ k : Fin 100,
    get_run_index_from_path [runDirName (k.val : Int)] = some (k.val : Int) := by decide

/-! ## Maximum of a list of naturals via `foldr max 0` -/

theorem le_foldr_max (l : List Nat) : ∀ e ∈ l, e ≤ l.foldr max 0 := by
  induction l with
  | nil => simp
  | cons a as ih =>
    intro e he
    rcases List.mem_cons.mp he with rfl | he
    · exact Nat.le_max_left _ _
    · exact le_trans (ih e he) (Nat.le_max_right _ _)

theorem foldr_max_mem {l : List Nat} (h : l ≠ []) : l.foldr max 0 ∈ l := by
  induction l with
  | nil => exact absurd rfl h
  | cons a as ih =>
    cases as with
    | nil => simp
    | cons b bs =>
      rw [List.foldr_cons]
      rcases max_choice a ((b :: bs).foldr max 0) with h' | h'
      · rw [h']; exact List.mem_cons_self _ _
      · rw [h']; exact List.mem_cons_of_mem a (ih (by simp))

/-! ## The last epoch index of a canonical component directory -/

theorem dirLastEpoch_mkCompDir (l : List (Nat × Blob))
    (hlt : ∀ e ∈ l.map Prod.fst, e < 100) :
    dirLastEpoch (l.map (fun ec => (epochFileName (ec.1 : Int), FSNode.file ec.2))) =
      Except.ok (hiIdx l) := by
  cases l with
  | nil => rfl
  | cons p ps =>
    have hmaxMem : ((p :: ps).map Prod.fst).foldr max 0 ∈ (p :: ps).map Prod.fst :=
      foldr_max_mem (by simp)
    have hmax100 : ((p :: ps).map Prod.fst).foldr max 0 < 100 := hlt _ hmaxMem
    have hfst :
        ((p :: ps).map (fun ec => (epochFileName (ec.1 : Int), FSNode.file ec.2))).map Prod.fst
          = (p :: ps).map (fun ec => epochFileName (ec.1 : Int)) := by
      rw [List.map_map]
      rfl
    have hlast : lastSorted ((p :: ps).map (fun ec => epochFileName (ec.1 : Int)))
        = epochFileName ((((p :: ps).map Prod.fst).foldr max 0 : Nat) : Int) := by
      apply lastSorted_eq
      · rcases List.mem_map.mp hmaxMem with ⟨ec, hec, hfsteq⟩
        exact List.mem_map.mpr ⟨ec, hec, by rw [hfsteq]⟩
      · intro z hz
        rcases List.mem_map.mp hz with ⟨ec, hec, rfl⟩
        have he100 : ec.1 < 100 := hlt _ (List.mem_map_of_mem _ hec)
        exact (epochFileName_le_iff ⟨ec.1, he100⟩ ⟨_, hmax100⟩).mpr
          (le_foldr_max _ _ (List.mem_map_of_mem _ hec))
    have hne2 : (p :: ps).map (fun ec => epochFileName (ec.1 : Int)) ≠ [] := by simp
    unfold dirLastEpoch
    rw [hfst]
    rw [if_neg (fun hlen => sortStr_ne_nil hne2 (List.length_eq_zero.mp hlen))]
    have hgl :
        (sortStr ((p :: ps).map (fun ec => epochFileName (ec.1 : Int)))).getLastD "" =
          epochFileName ((((p :: ps).map Prod.fst).foldr max 0 : Nat) : Int) := hlast
    rw [hgl, parse_epochFileName ⟨_, hmax100⟩]
    rfl

theorem priv_get_mkCompDir {fs : FSNode} {p : List String} {l : List (Nat × Blob)}
    (hres : resolve p fs = some (mkCompDir l))
    (hlt : ∀ e ∈ l.map Prod.fst, e < 100) :
    priv_get_last_epoch_index fs p = Except.ok (hiIdx l) := by
  unfold priv_get_last_epoch_index
  rw [hres]
  exact dirLastEpoch_mkCompDir l hlt

theorem get_last_epoch_index_mkCompDir {m : Manager} {fs : FSNode} {p : List String}
    {lm lo ls : List (Nat × Blob)}
    (hm : resolve (p ++ ["model"]) fs = some (mkCompDir lm))
    (ho : resolve (p ++ ["optimizer"]) fs = some (mkCompDir lo))
    (hs : resolve (p ++ ["scheduler"]) fs = some (mkCompDir ls))
    (hltm : ∀ e ∈ lm.map Prod.fst, e < 100)
    (hlto : ∀ e ∈ lo.map Prod.fst, e < 100)
    (hlts : ∀ e ∈ ls.map Prod.fst, e < 100) :
    get_last_epoch_index m fs p = Except.ok (min (hiIdx lm) (min (hiIdx lo) (hiIdx ls))) := by
  unfold get_last_epoch_index
  rw [priv_get_mkCompDir hm hltm, priv_get_mkCompDir ho hlto, priv_get_mkCompDir hs hlts]
  rfl

/-! ## Association-list lemmas for directory entries -/

theorem lookupEntry_cons (k : String) (w : FSNode) (rest : List (String × FSNode)) (n : String) :
    lookupEntry ((k, w) :: rest) n = if k = n then some w else lookupEntry rest n := by
  unfold lookupEntry
  by_cases h : k = n <;> simp [List.find?_cons, h]

theorem lookupEntry_setEntry_self (es : List (String × FSNode)) (n : String) (v : FSNode) :
    lookupEntry (setEntry es n v) n = some v := by
  induction es with
  | nil => simp [setEntry, lookupEntry_cons]
  | cons kw rest ih =>
    obtain ⟨k, w⟩ := kw
    unfold setEntry
    by_cases h : k = n
    · simp [h, lookupEntry_cons]
    · simp [h, lookupEntry_cons, ih]

theorem lookupEntry_setEntry_ne (es : List (String × FSNode)) {n m : String} (v : FSNode)
    (h : n ≠ m) : lookupEntry (setEntry es n v) m = lookupEntry es m := by
  induction es with
  | nil => simp [setEntry, lookupEntry_cons, h]
  | cons kw rest ih =>
    obtain ⟨k, w⟩ := kw
    unfold setEntry
    by_cases hk : k = n
    · subst hk
      simp [lookupEntry_cons, h]
    · simp only [if_neg hk, lookupEntry_cons, ih]

theorem setEntry_absent (es : List (String × FSNode)) (n : String) (v : FSNode)
    (h : lookupEntry es n = none) : setEntry es n v = es ++ [(n, v)] := by
  induction es with
  | nil => rfl
  | cons kw rest ih =>
    obtain ⟨k, w⟩ := kw
    rw [lookupEntry_cons] at h
    by_cases hk : k = n
    · rw [if_pos hk] at h; cases h
    · rw [if_neg hk] at h
      unfold setEntry
      rw [if_neg hk, ih h]
      simp

theorem setEntry_eq_of_lookup {es : List (String × FSNode)} {n : String} {v : FSNode}
    (h : lookupEntry es n = some v) : setEntry es n v = es := by
  induction es with
  | nil => simp [lookupEntry] at h
  | cons kw rest ih =>
    obtain ⟨k, w⟩ := kw
    rw [lookupEntry_cons] at h
    unfold setEntry
    by_cases hk : k = n
    · rw [if_pos hk] at h
      rw [if_pos hk, hk]
      injection h with h
      rw [h]
    · rw [if_neg hk] at h
      rw [if_neg hk, ih h]

theorem setEntry_cons (k : String) (w : FSNode) (rest : List (String × FSNode)) (n : String)
    (v : FSNode) :
    setEntry ((k, w) :: rest) n v =
      if k = n then (n, v) :: rest else (k, w) :: setEntry rest n v := rfl

theorem setEntry_setEntry (es : List (String × FSNode)) (n : String) (v w : FSNode) :
    setEntry (setEntry es n v) n w = setEntry es n w := by
  induction es with
  | nil => simp [setEntry]
  | cons kv rest ih =>
    obtain ⟨k, u⟩ := kv
    rw [setEntry_cons]
    by_cases h : k = n
    · rw [if_pos h, setEntry_cons, if_pos rfl, setEntry_cons, if_pos h]
    · rw [if_neg h, setEntry_cons, if_neg h, ih, setEntry_cons, if_neg h]

theorem lookupEntry_append_left {es : List (String × FSNode)} (fs : List (String × FSNode))
    {n : String} {v : FSNode} (h : lookupEntry es n = some v) :
    lookupEntry (es ++ fs) n = some v := by
  induction es with
  | nil => simp [lookupEntry] at h
  | cons kw rest ih =>
    obtain ⟨k, w⟩ := kw
    rw [lookupEntry_cons] at h
    rw [List.cons_append, lookupEntry_cons]
    by_cases hk : k = n
    · rwa [if_pos hk] at h ⊢
    · rw [if_neg hk] at h ⊢
      exact ih h

theorem lookupEntry_append_right {es : List (String × FSNode)} (fs : List (String × FSNode))
    {n : String} (h : lookupEntry es n = none) :
    lookupEntry (es ++ fs) n = lookupEntry fs n := by
  induction es with
  | nil => simp
  | cons kw rest ih =>
    obtain ⟨k, w⟩ := kw
    rw [lookupEntry_cons] at h
    rw [List.cons_append, lookupEntry_cons]
    by_cases hk : k = n
    · rw [if_pos hk] at h; cases h
    · rw [if_neg hk] at h
      rw [if_neg hk]
      exact ih h

theorem setEntry_append_last {es : List (String × FSNode)} {n : String} (v w : FSNode)
    (h : lookupEntry es n = none) : setEntry (es ++ [(n, v)]) n w = es ++ [(n, w)] := by
  induction es with
  | nil => simp [setEntry]
  | cons kw rest ih =>
    obtain ⟨k, u⟩ := kw
    rw [lookupEntry_cons] at h
    by_cases hk : k = n
    · rw [if_pos hk] at h; cases h
    · rw [if_neg hk] at h
      rw [List.cons_append]
      unfold setEntry
      rw [if_neg hk, ih h]
      simp

theorem map_fst_setEntry_present (es : List (String × FSNode)) (n : String) (v : FSNode)
    (h : (lookupEntry es n).isSome) :
    (setEntry es n v).map Prod.fst = es.map Prod.fst := by
  induction es with
  | nil => simp [lookupEntry] at h
  | cons kw rest ih =>
    obtain ⟨k, w⟩ := kw
    rw [lookupEntry_cons] at h
    unfold setEntry
    by_cases hk : k = n
    · simp [hk]
    · rw [if_neg hk] at h
      simp only [if_neg hk, List.map_cons, ih h]

theorem lookupEntry_isSome_iff (es : List (String × FSNode)) (n : String) :
    (lookupEntry es n).isSome ↔ n ∈ es.map Prod.fst := by
  induction es with
  | nil => simp [lookupEntry]
  | cons kw rest ih =>
    obtain ⟨k, w⟩ := kw
    rw [lookupEntry_cons]
    by_cases hk : k = n
    · simp [hk]
    · simp [hk, ih, Ne.symm hk]

theorem lookupEntry_map_const (names : List String) (v : FSNode) (x : String) :
    lookupEntry (names.map (fun n => (n, v))) x =
      if x ∈ names then some v else none := by
  induction names with
  | nil => simp [lookupEntry]
  | cons a rest ih =>
    rw [List.map_cons, lookupEntry_cons]
    by_cases ha : a = x
    · simp [ha]
    · simp [ha, ih, Ne.symm ha]

/-! ## Filesystem lemmas: `resolve`, `readFile?`, `writeFile` -/

theorem resolve_cons_dir (n : String) (rest : List String) (es : List (String × FSNode)) :
    resolve (n :: rest) (FSNode.dir es) =
      match lookupEntry es n with
      | some child => resolve rest child
      | none => none := rfl

theorem readFile?_nil_dir (es : List (String × FSNode)) :
    readFile? [] (FSNode.dir es) = none := rfl

theorem readFile?_cons_dir (n : String) (rest : List String) (es : List (String × FSNode)) :
    readFile? (n :: rest) (FSNode.dir es) =
      match lookupEntry es n with
      | some child => readFile? rest child
      | none => none := by
  unfold readFile?
  rw [resolve_cons_dir]
  cases lookupEntry es n <;> rfl

theorem writeFile_one_dir (n : String) (c : Blob) (es : List (String × FSNode)) :
    writeFile [n] c (FSNode.dir es) =
      match lookupEntry es n with
      | some (FSNode.dir _) => none
      | _ => some (FSNode.dir (setEntry es n (FSNode.file c))) := rfl

theorem writeFile_cons2_dir (n x : String) (rest : List String) (c : Blob)
    (es : List (String × FSNode)) :
    writeFile (n :: x :: rest) c (FSNode.dir es) =
      match lookupEntry es n with
      | some child =>
        (writeFile (x :: rest) c child).map (fun c' => FSNode.dir (setEntry es n c'))
      | none => none := rfl

theorem writeFile_file {p : List String} (hp : p ≠ []) (c d : Blob) :
    writeFile p c (FSNode.file d) = none := by
  cases p with
  | nil => exact absurd rfl hp
  | cons a t => cases t <;> rfl

theorem readFile?_writeFile_self {p : List String} {c : Blob} {fs fs' : FSNode}
    (h : writeFile p c fs = some fs') : readFile? p fs' = some c := by
  induction p generalizing fs fs' with
  | nil => cases h
  | cons n rest ih =>
    cases fs with
    | file d =>
      rw [writeFile_file (by simp) c d] at h
      cases h
    | dir es =>
      cases rest with
      | nil =>
        cases hlook : lookupEntry es n with
        | none =>
          rw [writeFile_one_dir, hlook] at h
          injection h with h
          subst h
          rw [readFile?_cons_dir, lookupEntry_setEntry_self]
          rfl
        | some child =>
          cases child with
          | dir ds =>
            rw [writeFile_one_dir, hlook] at h
            cases h
          | file d =>
            rw [writeFile_one_dir, hlook] at h
            injection h with h
            subst h
            rw [readFile?_cons_dir, lookupEntry_setEntry_self]
            rfl
      | cons x xs =>
        cases hlook : lookupEntry es n with
        | none =>
          rw [writeFile_cons2_dir, hlook] at h
          cases h
        | some child =>
          rw [writeFile_cons2_dir, hlook] at h
          obtain ⟨child', hw, hh⟩ := Option.map_eq_some'.mp h
          subst hh
          rw [readFile?_cons_dir, lookupEntry_setEntry_self]
          exact ih hw

theorem writeFile_cons_shape {n : String} {rest : List String} {c : Blob}
    {es : List (String × FSNode)} {fs' : FSNode}
    (h : writeFile (n :: rest) c (FSNode.dir es) = some fs') :
    ∃ z, fs' = FSNode.dir (setEntry es n z) := by
  cases rest with
  | nil =>
    cases hlook : lookupEntry es n with
    | none =>
      rw [writeFile_one_dir, hlook] at h
      exact ⟨FSNode.file c, by injection h with h; rw [← h]⟩
    | some child =>
      cases child with
      | dir ds =>
        rw [writeFile_one_dir, hlook] at h
        cases h
      | file d =>
        rw [writeFile_one_dir, hlook] at h
        exact ⟨FSNode.file c, by injection h with h; rw [← h]⟩
  | cons r rs =>
    cases hlook : lookupEntry es n with
    | none =>
      rw [writeFile_cons2_dir, hlook] at h
      cases h
    | some child =>
      rw [writeFile_cons2_dir, hlook] at h
      obtain ⟨child', hw, hh⟩ := Option.map_eq_some'.mp h
      exact ⟨child', hh.symm⟩

theorem readFile?_writeFile_frame {p q : List String} {c b : Blob} {fs fs' : FSNode}
    (h : writeFile p c fs = some fs') (hne : q ≠ p) (hq : readFile? q fs = some b) :
    readFile? q fs' = some b := by
  induction p generalizing q fs fs' with
  | nil => cases h
  | cons n rest ih =>
    cases fs with
    | file d =>
      rw [writeFile_file (by simp) c d] at h
      cases h
    | dir es =>
      cases q with
      | nil =>
        rw [readFile?_nil_dir] at hq
        cases hq
      | cons mq qrest =>
        by_cases hhead : mq = n
        · subst hhead
          cases rest with
          | nil =>
            cases hlook : lookupEntry es mq with
            | none =>
              rw [readFile?_cons_dir, hlook] at hq
              cases hq
            | some child =>
              cases child with
              | dir ds =>
                rw [writeFile_one_dir, hlook] at h
                cases h
              | file d =>
                rw [writeFile_one_dir, hlook] at h
                injection h with h
                subst h
                rw [readFile?_cons_dir, hlook] at hq
                cases qrest with
                | nil => exact absurd rfl hne
                | cons x xs => exact Option.noConfusion hq
          | cons r rs =>
            cases hlook : lookupEntry es mq with
            | none =>
              rw [writeFile_cons2_dir, hlook] at h
              cases h
            | some child =>
              rw [writeFile_cons2_dir, hlook] at h
              obtain ⟨child', hw, hh⟩ := Option.map_eq_some'.mp h
              subst hh
              rw [readFile?_cons_dir, hlook] at hq
              rw [readFile?_cons_dir, lookupEntry_setEntry_self]
              have hqr : qrest ≠ r :: rs := fun hh2 => hne (by rw [hh2])
              exact ih hw hqr hq
        · obtain ⟨z, rfl⟩ := writeFile_cons_shape h
          rw [readFile?_cons_dir] at hq ⊢
          rw [lookupEntry_setEntry_ne es z (fun hh => hhead hh.symm)]
          exact hq

theorem listNames_writeFile_long {n x : String} {rest : List String} {c : Blob} {es : _}
    {fs' : FSNode}
    (h : writeFile (n :: x :: rest) c (FSNode.dir es) = some fs') :
    ∃ es', fs' = FSNode.dir es' ∧ es'.map Prod.fst = es.map Prod.fst := by
  cases hlook : lookupEntry es n with
  | none =>
    rw [writeFile_cons2_dir, hlook] at h
    cases h
  | some child =>
    rw [writeFile_cons2_dir, hlook] at h
    obtain ⟨child', hw, hh⟩ := Option.map_eq_some'.mp h
    refine ⟨setEntry es n child', hh.symm, ?_⟩
    exact map_fst_setEntry_present es n child' (by rw [hlook]; rfl)

/-! ## Filesystem lemmas: `mkdirs`, `mkdirsAll`, `make_run_dir` -/

theorem mkdirs_one (n : String) (es : List (String × FSNode)) :
    mkdirs [n] (FSNode.dir es) =
      match lookupEntry es n with
      | some _ => (FSNode.dir es, some Err.fileExists)
      | none => (FSNode.dir (setEntry es n (FSNode.dir [])), none) := rfl

theorem mkdirs_cons2 (n x : String) (rest : List String) (es : List (String × FSNode)) :
    mkdirs (n :: x :: rest) (FSNode.dir es) =
      match lookupEntry es n with
      | some (FSNode.dir ces) =>
        (FSNode.dir (setEntry es n (mkdirs (x :: rest) (FSNode.dir ces)).1),
         (mkdirs (x :: rest) (FSNode.dir ces)).2)
      | some (FSNode.file _) => (FSNode.dir es, some Err.notADirectory)
      | none =>
        (FSNode.dir (setEntry es n (mkdirs (x :: rest) (FSNode.dir [])).1),
         (mkdirs (x :: rest) (FSNode.dir [])).2) := rfl

theorem mkdirs_file {p : List String} (hp : p ≠ []) (d : Blob) :
    mkdirs p (FSNode.file d) = (FSNode.file d, some Err.notADirectory) := by
  cases p with
  | nil => exact absurd rfl hp
  | cons a t => cases t <;> rfl

theorem readFile?_setEntry_fresh {es : List (String × FSNode)} {n : String} (z : FSNode)
    {q : List String} {b : Blob}
    (hlook : lookupEntry es n = none) (hq : readFile? q (FSNode.dir es) = some b) :
    readFile? q (FSNode.dir (setEntry es n z)) = some b := by
  cases q with
  | nil =>
    rw [readFile?_nil_dir] at hq
    cases hq
  | cons mq qrest =>
    rw [readFile?_cons_dir] at hq ⊢
    cases hlq : lookupEntry es mq with
    | none =>
      rw [hlq] at hq
      cases hq
    | some child =>
      have hne : n ≠ mq := by
        intro hh
        rw [hh, hlq] at hlook
        cases hlook
      rw [lookupEntry_setEntry_ne es z hne, hlq]
      rw [hlq] at hq
      exact hq

theorem readFile?_setEntry_update {es : List (String × FSNode)} {n : String}
    {ces : List (String × FSNode)} (z : FSNode) {q : List String} {b : Blob}
    (hlook : lookupEntry es n = some (FSNode.dir ces))
    (hstep : ∀ qr br, readFile? qr (FSNode.dir ces) = some br → readFile? qr z = some br)
    (hq : readFile? q (FSNode.dir es) = some b) :
    readFile? q (FSNode.dir (setEntry es n z)) = some b := by
  cases q with
  | nil =>
    rw [readFile?_nil_dir] at hq
    cases hq
  | cons mq qrest =>
    rw [readFile?_cons_dir] at hq ⊢
    by_cases hh : n = mq
    · subst hh
      rw [hlook] at hq
      rw [lookupEntry_setEntry_self]
      exact hstep _ _ hq
    · cases hlq : lookupEntry es mq with
      | none =>
        rw [hlq] at hq
        cases hq
      | some child =>
        rw [lookupEntry_setEntry_ne es z hh, hlq]
        rw [hlq] at hq
        exact hq

theorem readFile?_mkdirs_mono (p : List String) {q : List String} {b : Blob} {fs : FSNode}
    (hq : readFile? q fs = some b) : readFile? q (mkdirs p fs).1 = some b := by
  induction p generalizing q b fs with
  | nil => exact hq
  | cons n rest ih =>
    cases fs with
    | file d =>
      rw [mkdirs_file (by simp) d]
      exact hq
    | dir es =>
      cases rest with
      | nil =>
        cases hlook : lookupEntry es n with
        | some w =>
          rw [mkdirs_one, hlook]
          exact hq
        | none =>
          rw [mkdirs_one, hlook]
          exact readFile?_setEntry_fresh _ hlook hq
      | cons x xs =>
        cases hlook : lookupEntry es n with
        | some child =>
          cases child with
          | dir ces =>
            rw [mkdirs_cons2, hlook]
            exact readFile?_setEntry_update _ hlook (fun qr br hqr => ih hqr) hq
          | file d =>
            rw [mkdirs_cons2, hlook]
            exact hq
        | none =>
          rw [mkdirs_cons2, hlook]
          exact readFile?_setEntry_fresh _ hlook hq

theorem mkdirs_err_kinds (p : List String) (hp : p ≠ []) (fs : FSNode) :
    (mkdirs p fs).2 = none ∨ (mkdirs p fs).2 = some Err.fileExists ∨
      (mkdirs p fs).2 = some Err.notADirectory := by
  induction p generalizing fs with
  | nil => exact absurd rfl hp
  | cons n rest ih =>
    cases fs with
    | file d =>
      right; right
      rw [mkdirs_file (by simp) d]
    | dir es =>
      cases rest with
      | nil =>
        cases hlook : lookupEntry es n with
        | some w =>
          right; left
          rw [mkdirs_one, hlook]
        | none =>
          left
          rw [mkdirs_one, hlook]
      | cons x xs =>
        cases hlook : lookupEntry es n with
        | some child =>
          cases child with
          | dir ces =>
            rw [mkdirs_cons2, hlook]
            exact ih (by simp) (FSNode.dir ces)
          | file d =>
            right; right
            rw [mkdirs_cons2, hlook]
        | none =>
          rw [mkdirs_cons2, hlook]
          exact ih (by simp) (FSNode.dir [])

theorem readFile?_mkdirsAll_mono (names : List String) (run : String) {q : List String}
    {b : Blob} {fs : FSNode} (hq : readFile? q fs = some b) :
    readFile? q (mkdirsAll names run fs).1 = some b := by
  induction names generalizing fs with
  | nil => exact hq
  | cons n rest ih =>
    have h1 : readFile? q (mkdirs [run, n] fs).1 = some b := readFile?_mkdirs_mono _ hq
    simp only [mkdirsAll]
    cases hmk : (mkdirs [run, n] fs).2 with
    | none => exact ih h1
    | some ee => exact h1

theorem mkdirsAll_err_kinds (names : List String) (run : String) (fs : FSNode) :
    (mkdirsAll names run fs).2 = none ∨ (mkdirsAll names run fs).2 = some Err.fileExists ∨
      (mkdirsAll names run fs).2 = some Err.notADirectory := by
  induction names generalizing fs with
  | nil => left; rfl
  | cons n rest ih =>
    simp only [mkdirsAll]
    cases hmk : (mkdirs [run, n] fs).2 with
    | none => exact ih (mkdirs [run, n] fs).1
    | some ee =>
      have hh := mkdirs_err_kinds [run, n] (by simp) fs
      rw [hmk] at hh
      simpa using hh

theorem mkdirsAll_spec (names : List String) (run : String) (bs es : List (String × FSNode))
    (hrun : lookupEntry bs run = some (FSNode.dir es))
    (hnd : names.Nodup)
    (hfresh : ∀ n ∈ names, lookupEntry es n = none) :
    mkdirsAll names run (FSNode.dir bs) =
      (FSNode.dir (setEntry bs run
        (FSNode.dir (es ++ names.map (fun n => (n, FSNode.dir []))))), none) := by
  induction names generalizing bs es with
  | nil =>
    simp only [mkdirsAll, List.map_nil, List.append_nil]
    rw [setEntry_eq_of_lookup hrun]
  | cons n rest ih =>
    have hfn : lookupEntry es n = none := hfresh n (List.mem_cons_self _ _)
    have hstep : mkdirs [run, n] (FSNode.dir bs) =
        (FSNode.dir (setEntry bs run (FSNode.dir (setEntry es n (FSNode.dir [])))), none) := by
      simp only [mkdirs_cons2, hrun, mkdirs_one, hfn]
    simp only [mkdirsAll, hstep]
    rw [setEntry_absent es n (FSNode.dir []) hfn]
    show mkdirsAll rest run
        (FSNode.dir (setEntry bs run (FSNode.dir (es ++ [(n, FSNode.dir [])])))) = _
    have hrun' : lookupEntry (setEntry bs run (FSNode.dir (es ++ [(n, FSNode.dir [])]))) run =
        some (FSNode.dir (es ++ [(n, FSNode.dir [])])) := lookupEntry_setEntry_self _ _ _
    have hnd' : rest.Nodup := (List.nodup_cons.mp hnd).2
    have hnotin : n ∉ rest := (List.nodup_cons.mp hnd).1
    have hfresh' : ∀ x ∈ rest, lookupEntry (es ++ [(n, FSNode.dir [])]) x = none := by
      intro x hx
      rw [lookupEntry_append_right _ (hfresh x (List.mem_cons_of_mem _ hx))]
      rw [lookupEntry_cons]
      rw [if_neg (fun hh => hnotin (by rw [hh]; exact hx))]
      rfl
    rw [ih _ _ hrun' hnd' hfresh']
    rw [setEntry_setEntry]
    simp [List.append_assoc]

theorem make_run_dir_spec (m : Manager) (bs : List (String × FSNode)) (i : Int)
    (hfresh : lookupEntry bs (runDirName i) = none) (hnd : m.modules.Nodup) :
    make_run_dir m (FSNode.dir bs) i =
      ⟨{ m with start_epoch := 0, current_run_dir_path := [runDirName i] },
       FSNode.dir (bs ++
         [(runDirName i, FSNode.dir (m.modules.map (fun n => (n, FSNode.dir []))))]),
       none⟩ := by
  have h1 : mkdirs [runDirName i] (FSNode.dir bs) =
      (FSNode.dir (bs ++ [(runDirName i, FSNode.dir [])]), none) := by
    rw [mkdirs_one, hfresh, setEntry_absent bs (runDirName i) (FSNode.dir []) hfresh]
  have hrun : lookupEntry (bs ++ [(runDirName i, FSNode.dir [])]) (runDirName i) =
      some (FSNode.dir []) := by
    rw [lookupEntry_append_right _ hfresh, lookupEntry_cons, if_pos rfl]
  have h2 := mkdirsAll_spec m.modules (runDirName i) (bs ++ [(runDirName i, FSNode.dir [])])
    [] hrun hnd (fun n _ => rfl)
  rw [setEntry_append_last _ _ hfresh] at h2
  rw [List.nil_append] at h2
  simp only [make_run_dir, h1, h2]

theorem readFile?_make_run_dir_mono {m : Manager} {fs : FSNode} {i : Int} {q : List String}
    {b : Blob} (hq : readFile? q fs = some b) :
    readFile? q (make_run_dir m fs i).fs = some b := by
  simp only [make_run_dir]
  have h1 : readFile? q (mkdirs [runDirName i] fs).1 = some b := readFile?_mkdirs_mono _ hq
  have h2 : readFile? q (mkdirsAll m.modules (runDirName i) (mkdirs [runDirName i] fs).1).1 =
      some b := readFile?_mkdirsAll_mono _ _ h1
  cases hmk : (mkdirs [runDirName i] fs).2 with
  | some ee => exact h1
  | none =>
    cases hall : (mkdirsAll m.modules (runDirName i) (mkdirs [runDirName i] fs).1).2 with
    | some ee => exact h2
    | none => exact h2

theorem make_run_dir_err_kinds (m : Manager) (fs : FSNode) (i : Int) :
    (make_run_dir m fs i).err = none ∨ (make_run_dir m fs i).err = some Err.fileExists ∨
      (make_run_dir m fs i).err = some Err.notADirectory := by
  simp only [make_run_dir]
  cases hmk : (mkdirs [runDirName i] fs).2 with
  | some ee =>
    have hh := mkdirs_err_kinds [runDirName i] (by simp) fs
    rw [hmk] at hh
    simpa using hh
  | none =>
    cases hall : (mkdirsAll m.modules (runDirName i) (mkdirs [runDirName i] fs).1).2 with
    | none => left; rfl
    | some ee =>
      have hh := mkdirsAll_err_kinds m.modules (runDirName i) (mkdirs [runDirName i] fs).1
      rw [hall] at hh
      simpa using hh

/-! ## Lemmas about the save and load loops -/

theorem writeModules_cons (n : String) (rest : List String) (m : Manager) (fs : FSNode)
    (st : String → Blob) (wf : String → Bool) :
    writeModules (n :: rest) m fs st wf =
      if wf n then (fs, some Err.writeError)
      else
        match writeFile (get_checkpoint_module_path m n m.start_epoch) (st n) fs with
        | none => (fs, some Err.fileNotFound)
        | some fs1 => writeModules rest m fs1 st wf := rfl

theorem get_checkpoint_module_path_ne {m : Manager} {a n : String} (h : a ≠ n) (e : Int) :
    get_checkpoint_module_path m a e ≠ get_checkpoint_module_path m n e := by
  intro hh
  unfold get_checkpoint_module_path at hh
  have h2 := List.append_cancel_left hh
  injection h2 with h3 _
  exact h h3

theorem writeModules_frame (names : List String) {m : Manager} {fs : FSNode}
    {st : String → Blob} {wf : String → Bool} {q : List String} {b : Blob}
    (hq : readFile? q fs = some b)
    (hnotin : ∀ n ∈ names, q ≠ get_checkpoint_module_path m n m.start_epoch) :
    readFile? q (writeModules names m fs st wf).1 = some b := by
  induction names generalizing fs with
  | nil => exact hq
  | cons n rest ih =>
    rw [writeModules_cons]
    by_cases hwf : wf n
    · rw [if_pos hwf]
      exact hq
    · rw [if_neg hwf]
      cases hw : writeFile (get_checkpoint_module_path m n m.start_epoch) (st n) fs with
      | none => exact hq
      | some fs1 =>
        have hq1 : readFile? q fs1 = some b :=
          readFile?_writeFile_frame hw (hnotin n (List.mem_cons_self _ _)) hq
        exact ih hq1 (fun x hx => hnotin x (List.mem_cons_of_mem _ hx))

theorem writeModules_ok_reads (names : List String) {m : Manager} {fs fs' : FSNode}
    {st : String → Blob} {wf : String → Bool}
    (h : writeModules names m fs st wf = (fs', none)) :
    ∀ n ∈ names, readFile? (get_checkpoint_module_path m n m.start_epoch) fs' = some (st n) := by
  induction names generalizing fs with
  | nil =>
    intro n hn
    cases hn
  | cons a rest ih =>
    rw [writeModules_cons] at h
    by_cases hwf : wf a
    · rw [if_pos hwf] at h
      have hh := congrArg Prod.snd h
      simp at hh
    · rw [if_neg hwf] at h
      cases hw : writeFile (get_checkpoint_module_path m a m.start_epoch) (st a) fs with
      | none =>
        rw [hw] at h
        have hh := congrArg Prod.snd h
        simp at hh
      | some fs1 =>
        rw [hw] at h
        intro n hn
        rcases List.mem_cons.mp hn with rfl | hn
        · by_cases hmem : n ∈ rest
          · exact ih h n hmem
          · have h1 : readFile? (get_checkpoint_module_path m n m.start_epoch) fs1 =
                some (st n) := readFile?_writeFile_self hw
            have h2 := @writeModules_frame rest m fs1 st wf
              (get_checkpoint_module_path m n m.start_epoch) (st n) h1 (fun x hx =>
                get_checkpoint_module_path_ne (fun he => hmem (by rw [he]; exact hx))
                  m.start_epoch)
            have h3 : writeModules rest m fs1 st wf = (fs', none) := h
            rw [h3] at h2
            exact h2
        · exact ih h n hn

theorem listNames_writeFile_ge2 {p : List String} {c : Blob} {fs fs' : FSNode}
    (hp : 2 ≤ p.length) (h : writeFile p c fs = some fs') :
    fs'.listNames = fs.listNames := by
  cases fs with
  | file d =>
    rw [writeFile_file (by intro hh; rw [hh] at hp; simp at hp) c d] at h
    cases h
  | dir es =>
    cases p with
    | nil => simp at hp
    | cons a t =>
      cases t with
      | nil => simp at hp
      | cons b r =>
        obtain ⟨es', rfl, hmap⟩ := listNames_writeFile_long h
        simp only [FSNode.listNames]
        exact hmap

theorem writeModules_listNames (names : List String) (m : Manager) (fs : FSNode)
    (st : String → Blob) (wf : String → Bool) :
    ((writeModules names m fs st wf).1).listNames = fs.listNames := by
  induction names generalizing fs with
  | nil => rfl
  | cons n rest ih =>
    rw [writeModules_cons]
    by_cases hwf : wf n
    · rw [if_pos hwf]
    · rw [if_neg hwf]
      cases hw : writeFile (get_checkpoint_module_path m n m.start_epoch) (st n) fs with
      | none => rfl
      | some fs1 =>
        have hlen : 2 ≤ (get_checkpoint_module_path m n m.start_epoch).length := by
          simp [get_checkpoint_module_path]
        rw [ih fs1, listNames_writeFile_ge2 hlen hw]

theorem writeModules_err (names : List String) {m : Manager} {fs fs' : FSNode}
    {st : String → Blob} {wf : String → Bool} {e : Err}
    (h : writeModules names m fs st wf = (fs', some e)) :
    e = Err.writeError ∨ e = Err.fileNotFound := by
  induction names generalizing fs with
  | nil =>
    have hh := congrArg Prod.snd h
    simp [writeModules] at hh
  | cons n rest ih =>
    rw [writeModules_cons] at h
    by_cases hwf : wf n
    · rw [if_pos hwf] at h
      have hh := congrArg Prod.snd h
      simp at hh
      left
      exact hh.symm
    · rw [if_neg hwf] at h
      cases hw : writeFile (get_checkpoint_module_path m n m.start_epoch) (st n) fs with
      | none =>
        rw [hw] at h
        have hh := congrArg Prod.snd h
        simp at hh
        right
        exact hh.symm
      | some fs1 =>
        rw [hw] at h
        exact ih h

theorem loadModules_ok (names : List String) {m : Manager} {fs : FSNode}
    (hfiles : ∀ n ∈ names,
      (readFile? (get_checkpoint_module_path m n (m.start_epoch - 1)) fs).isSome) :
    loadModules names m fs =
      (names.map (fun n =>
        (n, (readFile? (get_checkpoint_module_path m n (m.start_epoch - 1)) fs).getD 0)),
       none) := by
  induction names with
  | nil => rfl
  | cons n rest ih =>
    have hn := hfiles n (List.mem_cons_self _ _)
    obtain ⟨c, hc⟩ := Option.isSome_iff_exists.mp hn
    simp only [loadModules, hc]
    rw [ih (fun x hx => hfiles x (List.mem_cons_of_mem _ hx))]
    simp [hc]

/-! ## Characterization of `scan_experiment_dir` -/

theorem scan_empty (m : Manager) :
    scan_experiment_dir m (FSNode.dir []) = make_run_dir m (FSNode.dir []) 0 := rfl

theorem scan_nonempty_cases (m : Manager) (fs : FSNode) (r : String)
    (hne : fs.listNames ≠ []) (hr : lastSorted fs.listNames = r) :
    scan_experiment_dir m fs =
      match is_run_completed m fs [r] with
      | Except.error e => ⟨m, fs, some e⟩
      | Except.ok true =>
        match get_run_index_from_path [r] with
        | none => ⟨m, fs, some Err.valueError⟩
        | some idx => make_run_dir m fs (idx + 1)
      | Except.ok false =>
        match get_last_epoch_index m fs [r] with
        | Except.error e => ⟨m, fs, some e⟩
        | Except.ok lastEpoch =>
          ⟨{ m with current_run_dir_path := [r], start_epoch := lastEpoch + 1 }, fs, none⟩ := by
  simp only [scan_experiment_dir, get_number_of_runs, get_last_run_dir_path, hr]
  rw [if_neg (fun hlen => hne (List.length_eq_zero.mp hlen))]

theorem scan_err {m : Manager} {fs : FSNode} {r : String} {e : Err}
    (hne : fs.listNames ≠ []) (hr : lastSorted fs.listNames = r)
    (hc : is_run_completed m fs [r] = Except.error e) :
    scan_experiment_dir m fs = ⟨m, fs, some e⟩ := by
  rw [scan_nonempty_cases m fs r hne hr, hc]

theorem scan_incomplete {m : Manager} {fs : FSNode} {r : String} {le : Int}
    (hne : fs.listNames ≠ []) (hr : lastSorted fs.listNames = r)
    (hc : is_run_completed m fs [r] = Except.ok false)
    (hle : get_last_epoch_index m fs [r] = Except.ok le) :
    scan_experiment_dir m fs =
      ⟨{ m with current_run_dir_path := [r], start_epoch := le + 1 }, fs, none⟩ := by
  rw [scan_nonempty_cases m fs r hne hr, hc, hle]

theorem scan_complete {m : Manager} {fs : FSNode} {r : String} {i : Int}
    (hne : fs.listNames ≠ []) (hr : lastSorted fs.listNames = r)
    (hc : is_run_completed m fs [r] = Except.ok true)
    (hi : get_run_index_from_path [r] = some i) :
    scan_experiment_dir m fs = make_run_dir m fs (i + 1) := by
  rw [scan_nonempty_cases m fs r hne hr, hc, hi]

theorem is_run_completed_of_ok {m : Manager} {fs : FSNode} {p : List String} {v : Int}
    (h : get_last_epoch_index m fs p = Except.ok v) :
    is_run_completed m fs p =
      Except.ok (decide (v = (m.epochs_per_run : Int) - 1)) := by
  unfold is_run_completed is_checkpoint_dir_full
  rw [h]
  simp [Except.bind]

theorem is_run_completed_of_err {m : Manager} {fs : FSNode} {p : List String} {e : Err}
    (h : get_last_epoch_index m fs p = Except.error e) :
    is_run_completed m fs p = Except.error e := by
  unfold is_run_completed is_checkpoint_dir_full
  rw [h]
  rfl

theorem is_run_completed_inv {m : Manager} {fs : FSNode} {p : List String} {b : Bool}
    (h : is_run_completed m fs p = Except.ok b) :
    ∃ v, get_last_epoch_index m fs p = Except.ok v := by
  cases hg : get_last_epoch_index m fs p with
  | ok v => exact ⟨v, rfl⟩
  | error e =>
    rw [is_run_completed_of_err hg] at h
    cases h

/-! ## Characterization of `save_checkpoint` and successful `make_run_dir` -/

theorem save_checkpoint_of_write_err {m : Manager} {fs : FSNode} {st : String → Blob}
    {wf : String → Bool} {e : Err}
    (hw : (writeModules m.modules m fs st wf).2 = some e) :
    save_checkpoint m fs st wf = ⟨m, (writeModules m.modules m fs st wf).1, some e⟩ := by
  simp only [save_checkpoint, hw]

theorem save_checkpoint_of_ok_nowrap {m : Manager} {fs : FSNode} {st : String → Blob}
    {wf : String → Bool}
    (hw : (writeModules m.modules m fs st wf).2 = none)
    (hnw : m.start_epoch + 1 ≠ (m.epochs_per_run : Int)) :
    save_checkpoint m fs st wf =
      ⟨{ m with start_epoch := m.start_epoch + 1 },
       (writeModules m.modules m fs st wf).1, none⟩ := by
  simp only [save_checkpoint, hw]
  rw [if_neg hnw]

theorem save_checkpoint_of_ok_wrap {m : Manager} {fs : FSNode} {st : String → Blob}
    {wf : String → Bool} {i : Int}
    (hw : (writeModules m.modules m fs st wf).2 = none)
    (hwr : m.start_epoch + 1 = (m.epochs_per_run : Int))
    (hi : get_run_index_from_path m.current_run_dir_path = some i) :
    save_checkpoint m fs st wf =
      make_run_dir { m with start_epoch := m.start_epoch + 1 }
        (writeModules m.modules m fs st wf).1 (i + 1) := by
  simp only [save_checkpoint, hw, hi]
  rw [if_pos hwr]

theorem save_checkpoint_of_ok_noparse {m : Manager} {fs : FSNode} {st : String → Blob}
    {wf : String → Bool}
    (hw : (writeModules m.modules m fs st wf).2 = none)
    (hwr : m.start_epoch + 1 = (m.epochs_per_run : Int))
    (hi : get_run_index_from_path m.current_run_dir_path = none) :
    save_checkpoint m fs st wf =
      ⟨{ m with start_epoch := m.start_epoch + 1 },
       (writeModules m.modules m fs st wf).1, some Err.valueError⟩ := by
  simp only [save_checkpoint, hw, hi]
  rw [if_pos hwr]

theorem writeModules_eta {m : Manager} {fs : FSNode} {st : String → Blob}
    {wf : String → Bool} (hw : (writeModules m.modules m fs st wf).2 = none) :
    writeModules m.modules m fs st wf = ((writeModules m.modules m fs st wf).1, none) := by
  rw [← hw]

theorem mkdirs_pair_creates {run n : String} {fs : FSNode}
    (h2 : (mkdirs [run, n] fs).2 = none) :
    resolve [run, n] (mkdirs [run, n] fs).1 = some (FSNode.dir []) := by
  cases fs with
  | file d =>
    rw [mkdirs_file (by simp) d] at h2
    cases h2
  | dir bs =>
    rw [mkdirs_cons2] at h2 ⊢
    cases hl : lookupEntry bs run with
    | some child =>
      cases child with
      | dir ces =>
        simp only [hl] at h2 ⊢
        rw [mkdirs_one] at h2 ⊢
        cases hlc : lookupEntry ces n with
        | some w =>
          simp only [hlc] at h2
          cases h2
        | none =>
          simp only [hlc]
          rw [resolve_cons_dir, lookupEntry_setEntry_self]
          show resolve [n] (FSNode.dir (setEntry ces n (FSNode.dir []))) = some (FSNode.dir [])
          rw [resolve_cons_dir, lookupEntry_setEntry_self]
          rfl
      | file d =>
        simp only [hl] at h2
        cases h2
    | none =>
      simp only [hl]
      rw [resolve_cons_dir, lookupEntry_setEntry_self]
      show resolve [n] (FSNode.dir (setEntry [] n (FSNode.dir []))) = some (FSNode.dir [])
      rw [resolve_cons_dir, lookupEntry_setEntry_self]
      rfl

theorem mkdirs_pair_preserves {run n n' : String} {fs : FSNode} (hne : n' ≠ n)
    (hprev : resolve [run, n'] fs = some (FSNode.dir [])) :
    resolve [run, n'] (mkdirs [run, n] fs).1 = some (FSNode.dir []) := by
  cases fs with
  | file d => cases hprev
  | dir bs =>
    rw [resolve_cons_dir] at hprev
    cases hl : lookupEntry bs run with
    | none =>
      simp only [hl] at hprev
      cases hprev
    | some child =>
      simp only [hl] at hprev
      rw [mkdirs_cons2]
      simp only [hl]
      cases child with
      | file d => cases hprev
      | dir ces =>
        rw [resolve_cons_dir] at hprev
        rw [resolve_cons_dir, lookupEntry_setEntry_self, mkdirs_one]
        cases hlc : lookupEntry ces n with
        | some w =>
          simp only [hlc]
          rw [resolve_cons_dir]
          exact hprev
        | none =>
          simp only [hlc]
          rw [resolve_cons_dir, lookupEntry_setEntry_ne ces _ (fun hh => hne hh.symm)]
          exact hprev

theorem mkdirsAll_pair_preserves (names : List String) {run n' : String} {fs : FSNode}
    (hni : n' ∉ names) (hprev : resolve [run, n'] fs = some (FSNode.dir [])) :
    resolve [run, n'] (mkdirsAll names run fs).1 = some (FSNode.dir []) := by
  induction names generalizing fs with
  | nil => exact hprev
  | cons a rest ih =>
    simp only [mkdirsAll]
    have hna : n' ≠ a := fun hh => hni (by rw [hh]; exact List.mem_cons_self _ _)
    have hp1 : resolve [run, n'] (mkdirs [run, a] fs).1 = some (FSNode.dir []) :=
      mkdirs_pair_preserves hna hprev
    cases hmk : (mkdirs [run, a] fs).2 with
    | some e => exact hp1
    | none => exact ih (fun hh => hni (List.mem_cons_of_mem _ hh)) hp1

theorem mkdirsAll_ok_resolve (names : List String) (run : String) (fs : FSNode)
    (h : (mkdirsAll names run fs).2 = none) :
    ∀ n ∈ names, resolve [run, n] (mkdirsAll names run fs).1 = some (FSNode.dir []) := by
  induction names generalizing fs with
  | nil =>
    intro n hn
    cases hn
  | cons a rest ih =>
    simp only [mkdirsAll] at h ⊢
    cases hmk : (mkdirs [run, a] fs).2 with
    | some e =>
      rw [hmk] at h
      cases h
    | none =>
      rw [hmk] at h
      intro n hn
      rcases List.mem_cons.mp hn with rfl | hn
      · by_cases hmm : n ∈ rest
        · exact ih _ h n hmm
        · exact mkdirsAll_pair_preserves rest hmm (mkdirs_pair_creates hmk)
      · exact ih _ h n hn

theorem make_run_dir_ok {m : Manager} {fs : FSNode} {i : Int}
    (h : (make_run_dir m fs i).err = none) :
    (make_run_dir m fs i).manager =
      { m with start_epoch := 0, current_run_dir_path := [runDirName i] } ∧
    ∀ n ∈ m.modules,
      resolve [runDirName i, n] (make_run_dir m fs i).fs = some (FSNode.dir []) := by
  simp only [make_run_dir] at h ⊢
  cases h1 : (mkdirs [runDirName i] fs).2 with
  | some e =>
    rw [h1] at h
    cases h
  | none =>
    rw [h1] at h
    cases h2 : (mkdirsAll m.modules (runDirName i) (mkdirs [runDirName i] fs).1).2 with
    | some e =>
      rw [h2] at h
      cases h
    | none =>
      exact ⟨rfl, mkdirsAll_ok_resolve _ _ _ h2⟩

theorem save_ok_reads_all {m : Manager} {fs : FSNode} {st : String → Blob}
    {wf : String → Bool} (hok : (save_checkpoint m fs st wf).err = none) :
    ∀ n ∈ m.modules,
      readFile? (get_checkpoint_module_path m n m.start_epoch)
        ((save_checkpoint m fs st wf).fs) = some (st n) := by
  cases hw : (writeModules m.modules m fs st wf).2 with
  | some e =>
    rw [save_checkpoint_of_write_err hw] at hok
    cases hok
  | none =>
    have hreads := writeModules_ok_reads m.modules (writeModules_eta hw)
    by_cases hwr : m.start_epoch + 1 = (m.epochs_per_run : Int)
    · cases hi : get_run_index_from_path m.current_run_dir_path with
      | none =>
        rw [save_checkpoint_of_ok_noparse hw hwr hi] at hok
        cases hok
      | some i =>
        rw [save_checkpoint_of_ok_wrap hw hwr hi]
        intro n hn
        exact readFile?_make_run_dir_mono (hreads n hn)
    · rw [save_checkpoint_of_ok_nowrap hw hwr]
      exact hreads

/-! ## Error taxonomy of the scan -/

theorem dirLastEpoch_cases (es : List (String × FSNode)) :
    (∃ v, dirLastEpoch es = Except.ok v) ∨ dirLastEpoch es = Except.error Err.valueError := by
  simp only [dirLastEpoch]
  split
  · exact Or.inl ⟨-1, rfl⟩
  · cases pyInt? (splitDotHead ((sortStr (es.map Prod.fst)).getLastD "")) with
    | none => exact Or.inr rfl
    | some n => exact Or.inl ⟨n, rfl⟩

theorem priv_get_of_isDir {fs : FSNode} {p : List String} (h : isDirB fs p = true) :
    (∃ v, priv_get_last_epoch_index fs p = Except.ok v) ∨
      priv_get_last_epoch_index fs p = Except.error Err.valueError := by
  unfold isDirB at h
  unfold priv_get_last_epoch_index
  cases hres : resolve p fs with
  | none =>
    rw [hres] at h
    cases h
  | some node =>
    cases node with
    | file c =>
      rw [hres] at h
      cases h
    | dir es =>
      exact dirLastEpoch_cases es

theorem priv_get_of_not_isDir {fs : FSNode} {p : List String} (h : isDirB fs p = false) :
    priv_get_last_epoch_index fs p = Except.error Err.notADirectory := by
  unfold isDirB at h
  unfold priv_get_last_epoch_index
  cases hres : resolve p fs with
  | none => rfl
  | some node =>
    cases node with
    | file c => rfl
    | dir es =>
      rw [hres] at h
      cases h

theorem priv_get_trichotomy {fs : FSNode} {p : List String} (hv : isValueErrB fs p = false) :
    (isDirB fs p = false ∧
      priv_get_last_epoch_index fs p = Except.error Err.notADirectory) ∨
    (isDirB fs p = true ∧ ∃ v, priv_get_last_epoch_index fs p = Except.ok v) := by
  cases hd : isDirB fs p with
  | false => exact Or.inl ⟨rfl, priv_get_of_not_isDir hd⟩
  | true =>
    rcases priv_get_of_isDir hd with ⟨v, hv'⟩ | hv'
    · exact Or.inr ⟨rfl, v, hv'⟩
    · unfold isValueErrB at hv
      rw [hv'] at hv
      cases hv

theorem get_last_epoch_index_nad_iff (m : Manager) (fs : FSNode) (p : List String)
    (hv1 : isValueErrB fs (p ++ ["model"]) = false)
    (hv2 : isValueErrB fs (p ++ ["optimizer"]) = false)
    (hv3 : isValueErrB fs (p ++ ["scheduler"]) = false) :
    get_last_epoch_index m fs p = Except.error Err.notADirectory ↔
      (isDirB fs (p ++ ["model"]) = false ∨ isDirB fs (p ++ ["optimizer"]) = false ∨
        isDirB fs (p ++ ["scheduler"]) = false) := by
  rcases priv_get_trichotomy hv1 with ⟨hd1, hp1⟩ | ⟨hd1, v1, hp1⟩
  · constructor
    · intro _
      exact Or.inl hd1
    · intro _
      unfold get_last_epoch_index
      rw [hp1]
      rfl
  · rcases priv_get_trichotomy hv2 with ⟨hd2, hp2⟩ | ⟨hd2, v2, hp2⟩
    · constructor
      · intro _
        exact Or.inr (Or.inl hd2)
      · intro _
        unfold get_last_epoch_index
        rw [hp1, hp2]
        rfl
    · rcases priv_get_trichotomy hv3 with ⟨hd3, hp3⟩ | ⟨hd3, v3, hp3⟩
      · constructor
        · intro _
          exact Or.inr (Or.inr hd3)
        · intro _
          unfold get_last_epoch_index
          rw [hp1, hp2, hp3]
          rfl
      · constructor
        · intro h
          unfold get_last_epoch_index at h
          rw [hp1, hp2, hp3] at h
          cases h
        · intro h
          rcases h with hh | hh | hh
          · rw [hd1] at hh
            cases hh
          · rw [hd2] at hh
            cases hh
          · rw [hd3] at hh
            cases hh

theorem mkdirsAll_err_ne_nad (names : List String) {run : String}
    {bs ds : List (String × FSNode)} (hrun : lookupEntry bs run = some (FSNode.dir ds)) :
    (mkdirsAll names run (FSNode.dir bs)).2 ≠ some Err.notADirectory := by
  induction names generalizing bs ds with
  | nil =>
    intro hc
    cases hc
  | cons a rest ih =>
    simp only [mkdirsAll]
    rw [mkdirs_cons2]
    simp only [hrun]
    rw [mkdirs_one]
    cases hlc : lookupEntry ds a with
    | some w =>
      simp only [hlc]
      intro hc
      injection hc with hc
      cases hc
    | none =>
      simp only [hlc]
      exact ih (lookupEntry_setEntry_self bs run _)

theorem make_run_dir_err_ne_nad (m : Manager) (bs : List (String × FSNode)) (i : Int) :
    (make_run_dir m (FSNode.dir bs) i).err ≠ some Err.notADirectory := by
  simp only [make_run_dir]
  rw [mkdirs_one]
  cases hl : lookupEntry bs (runDirName i) with
  | some w =>
    simp only [hl]
    intro hc
    injection hc with hc
    cases hc
  | none =>
    simp only [hl]
    have hne2 := mkdirsAll_err_ne_nad m.modules
      (lookupEntry_setEntry_self bs (runDirName i) (FSNode.dir []))
    cases hall : (mkdirsAll m.modules (runDirName i)
        (FSNode.dir (setEntry bs (runDirName i) (FSNode.dir [])))).2 with
    | none =>
      intro hc
      cases hc
    | some e =>
      rw [hall] at hne2
      intro hc
      exact hne2 hc

theorem hiIdx_le {l : List (Nat × Blob)} {B : Nat} (h : ∀ e ∈ l.map Prod.fst, e < B) :
    hiIdx l ≤ (B : Int) - 1 := by
  cases l with
  | nil =>
    show (-1 : Int) ≤ (B : Int) - 1
    omega
  | cons p ps =>
    show ((((p :: ps).map Prod.fst).foldr max 0 : Nat) : Int) ≤ (B : Int) - 1
    have hm := foldr_max_mem (l := (p :: ps).map Prod.fst) (by simp)
    have := h _ hm
    omega

theorem hiIdx_eq_iff_mem {l : List (Nat × Blob)} {B : Nat} (hB : 1 ≤ B)
    (h : ∀ e ∈ l.map Prod.fst, e < B) :
    (hiIdx l = (B : Int) - 1 ↔ (B - 1) ∈ l.map Prod.fst) := by
  cases l with
  | nil =>
    show ((-1 : Int) = (B : Int) - 1 ↔ _)
    simp only [List.map_nil, List.not_mem_nil, iff_false]
    omega
  | cons p ps =>
    show ((((p :: ps).map Prod.fst).foldr max 0 : Nat) : Int) = (B : Int) - 1 ↔ _
    constructor
    · intro hh
      have hx : ((p :: ps).map Prod.fst).foldr max 0 = B - 1 := by omega
      rw [← hx]
      exact foldr_max_mem (by simp)
    · intro hmem
      have h1 := le_foldr_max _ _ hmem
      have h2 := h _ (foldr_max_mem (l := (p :: ps).map Prod.fst) (by simp))
      omega

theorem dir_of_listNames_ne_nil {fs : FSNode} (h : fs.listNames ≠ []) :
    ∃ bs, fs = FSNode.dir bs := by
  cases fs with
  | file c => exact absurd rfl h
  | dir bs => exact ⟨bs, rfl⟩

/-! ## The claims -/

/-- C5: for every epoch budget B ≥ 1 and every (duplicate-free) set of
tracked component names, initializing on an empty root creates run 0 with
one empty sub-directory per tracked name and sets the resume epoch to 0. -/
theorem c5_empty_root_creates_run0 (m : Manager) (hB : 1 ≤ m.epochs_per_run)
    (hnd : m.modules.Nodup) :
    scan_experiment_dir m (FSNode.dir []) =
      ⟨{ m with start_epoch := 0, current_run_dir_path := ["run_00"] },
       FSNode.dir [("run_00", FSNode.dir (m.modules.map (fun n => (n, FSNode.dir []))))],
       none⟩ := by
  rw [scan_empty]
  have hspec := make_run_dir_spec m [] 0 rfl hnd
  have hrn : runDirName (0 : Int) = "run_00" := rfl
  rw [hrn] at hspec
  rw [hspec]
  rfl

/-- C5 witness: the theorem applied to the three-component manager. -/
theorem c5_witness :
    scan_experiment_dir exMgrMOS (FSNode.dir []) =
      ⟨⟨["model", "optimizer", "scheduler"], 3, 0, ["run_00"]⟩,
       FSNode.dir [("run_00", FSNode.dir
         [("model", FSNode.dir []), ("optimizer", FSNode.dir []),
          ("scheduler", FSNode.dir [])])],
       none⟩ :=
  c5_empty_root_creates_run0 exMgrMOS (by decide) (by decide)

/-- C9 (code bug): on any initialized manager (here: one freshly produced by
the scan), `get_current_run_dir_path` raises `NameError` instead of
returning the current run directory path, because its parameter is named
`slef` while the body reads `self`; `get_start_epoch` does return the
cursor's next-epoch value. -/
theorem c9_accessor_name_error :
    get_current_run_dir_path (scan_experiment_dir exMgrMOS (FSNode.dir [])).manager =
      Except.error Err.nameError ∧
    get_start_epoch (scan_experiment_dir exMgrMOS (FSNode.dir [])).manager =
      ((scan_experiment_dir exMgrMOS (FSNode.dir [])).manager).start_epoch :=
  ⟨rfl, rfl⟩

/-- C2: if any individual component write fails (the save hook / write
raising is `Err.writeError`, a structurally impossible write is
`Err.fileNotFound`), the cursor is exactly what it was before the call —
so a retry targets the same epoch's paths — and no new run directory
appears under the root; and a successful `save_checkpoint` has written
every tracked component's blob for the current epoch (no partial success
is ever reported). -/
theorem c2_save_failure_atomic (m : Manager) (fs : FSNode) (st : String → Blob)
    (wf : String → Bool) :
    (((save_checkpoint m fs st wf).err = some Err.writeError ∨
        (save_checkpoint m fs st wf).err = some Err.fileNotFound) →
      (save_checkpoint m fs st wf).manager = m ∧
      ((save_checkpoint m fs st wf).fs).listNames = fs.listNames ∧
      (∀ n, get_checkpoint_module_path (save_checkpoint m fs st wf).manager n
          ((save_checkpoint m fs st wf).manager).start_epoch =
        get_checkpoint_module_path m n m.start_epoch)) ∧
    ((save_checkpoint m fs st wf).err = none →
      ∀ n ∈ m.modules,
        readFile? (get_checkpoint_module_path m n m.start_epoch)
          ((save_checkpoint m fs st wf).fs) = some (st n)) := by
  refine ⟨?_, fun hok => save_ok_reads_all hok⟩
  intro he
  cases hw : (writeModules m.modules m fs st wf).2 with
  | some e =>
    rw [save_checkpoint_of_write_err hw]
    exact ⟨rfl, writeModules_listNames _ _ _ _ _, fun n => rfl⟩
  | none =>
    exfalso
    by_cases hwr : m.start_epoch + 1 = (m.epochs_per_run : Int)
    · cases hi : get_run_index_from_path m.current_run_dir_path with
      | none =>
        rw [save_checkpoint_of_ok_noparse hw hwr hi] at he
        rcases he with he | he <;> (injection he with he; cases he)
      | some i =>
        rw [save_checkpoint_of_ok_wrap hw hwr hi] at he
        rcases make_run_dir_err_kinds { m with start_epoch := m.start_epoch + 1 }
            (writeModules m.modules m fs st wf).1 (i + 1) with hk | hk | hk <;>
          rw [hk] at he <;>
          rcases he with he | he <;>
          first
          | exact Option.noConfusion he
          | (injection he with he; cases he)
    · rw [save_checkpoint_of_ok_nowrap hw hwr] at he
      rcases he with he | he <;> exact Option.noConfusion he

/-- C2 witness: a failing optimizer write at epoch 2 leaves the cursor and
the root's entries untouched. -/
theorem c2_witness :
    (save_checkpoint exMgrSync exFsSched (fun _ => 99) (fun n => n == "optimizer")).manager =
      exMgrSync ∧
    ((save_checkpoint exMgrSync exFsSched (fun _ => 99)
        (fun n => n == "optimizer")).fs).listNames = exFsSched.listNames :=
  have h := (c2_save_failure_atomic exMgrSync exFsSched (fun _ => 99)
    (fun n => n == "optimizer")).1 (Or.inl rfl)
  ⟨h.1, h.2.1⟩

/-- C3: on a successful `save_checkpoint`, every tracked component's file
for the current epoch has been written before the cursor moves; the
reported epoch then increases by exactly 1 when the advanced epoch is
below the budget, and at the budget boundary it wraps to 0 while the run
index increases by 1 and a fresh run directory with one (empty)
sub-directory per tracked component is created. -/
theorem c3_save_advances_cursor (m : Manager) (fs : FSNode) (st : String → Blob)
    (wf : String → Bool) (hok : (save_checkpoint m fs st wf).err = none) :
    (∀ n ∈ m.modules,
      readFile? (get_checkpoint_module_path m n m.start_epoch)
        ((save_checkpoint m fs st wf).fs) = some (st n)) ∧
    (m.start_epoch + 1 ≠ (m.epochs_per_run : Int) →
      (save_checkpoint m fs st wf).manager = { m with start_epoch := m.start_epoch + 1 }) ∧
    (m.start_epoch + 1 = (m.epochs_per_run : Int) →
      ∀ i, get_run_index_from_path m.current_run_dir_path = some i →
        ((save_checkpoint m fs st wf).manager).start_epoch = 0 ∧
        ((save_checkpoint m fs st wf).manager).current_run_dir_path = [runDirName (i + 1)] ∧
        (0 ≤ i → i + 1 < 100 →
          get_run_index_from_path
            ((save_checkpoint m fs st wf).manager).current_run_dir_path = some (i + 1)) ∧
        (∀ n ∈ m.modules,
          resolve [runDirName (i + 1), n] ((save_checkpoint m fs st wf).fs) =
            some (FSNode.dir []))) := by
  refine ⟨save_ok_reads_all hok, ?_, ?_⟩
  · intro hnw
    cases hw : (writeModules m.modules m fs st wf).2 with
    | some e =>
      rw [save_checkpoint_of_write_err hw] at hok
      cases hok
    | none =>
      rw [save_checkpoint_of_ok_nowrap hw hnw]
  · intro hwr i hi
    cases hw : (writeModules m.modules m fs st wf).2 with
    | some e =>
      rw [save_checkpoint_of_write_err hw] at hok
      cases hok
    | none =>
      rw [save_checkpoint_of_ok_wrap hw hwr hi] at hok ⊢
      obtain ⟨hmgr, hdirs⟩ := make_run_dir_ok hok
      rw [hmgr]
      refine ⟨rfl, rfl, ?_, hdirs⟩
      intro hge hlt
      have hnn : (0 : Int) ≤ i + 1 := by omega
      have hlt' : (i + 1).toNat < 100 := by omega
      have hp := parse_runDirName ⟨(i + 1).toNat, hlt'⟩
      have hp2 : get_run_index_from_path [runDirName (((i + 1).toNat : Nat) : Int)] =
          some (((i + 1).toNat : Nat) : Int) := hp
      rw [Int.toNat_of_nonneg hnn] at hp2
      exact hp2

/-- C3 witness: a successful save at the budget boundary (epoch 2, budget
3) wraps the cursor to epoch 0 of run 1. -/
theorem c3_witness :
    ((save_checkpoint exMgrSync exFsSched (fun _ => 99) (fun _ => false)).manager).start_epoch
      = 0 ∧
    ((save_checkpoint exMgrSync exFsSched (fun _ => 99)
        (fun _ => false)).manager).current_run_dir_path = ["run_01"] :=
  have h := (c3_save_advances_cursor exMgrSync exFsSched (fun _ => 99) (fun _ => false)
    rfl).2.2 (by decide) 0 rfl
  ⟨h.1, by rw [h.2.1]; rfl⟩

/-- C6: on a manager in sync with the tree (re-scanning reproduces the
same cursor and leaves the tree unchanged), `load_last_checkpoint` is a
no-op when the resume epoch is 0; otherwise it feeds, for every tracked
component in order, the blob stored at
`current_run_dir/<name>/<zero-padded (resume_epoch - 1)>.pth` to that
component's load hook. -/
theorem c6_resume_loads (m : Manager) (fs : FSNode)
    (hsync : scan_experiment_dir m fs = ⟨m, fs, none⟩) :
    (m.start_epoch = 0 → load_last_checkpoint m fs = ⟨m, fs, [], none⟩) ∧
    (m.start_epoch ≠ 0 →
      (∀ n ∈ m.modules,
        (readFile? (get_checkpoint_module_path m n (m.start_epoch - 1)) fs).isSome) →
      load_last_checkpoint m fs =
        ⟨m, fs,
         m.modules.map (fun n =>
           (n, (readFile? (get_checkpoint_module_path m n (m.start_epoch - 1)) fs).getD 0)),
         none⟩) := by
  constructor
  · intro h0
    simp only [load_last_checkpoint, hsync]
    rw [if_pos h0]
  · intro hne hfiles
    simp only [load_last_checkpoint, hsync]
    rw [if_neg hne]
    rw [loadModules_ok m.modules hfiles]

/-- C6 witness: with the cursor at epoch 2 of run 0, resume loads each
component's epoch-1 blob. -/
theorem c6_witness :
    load_last_checkpoint exMgrSync exFsSched =
      ⟨exMgrSync, exFsSched,
       [("model", 11), ("optimizer", 21), ("scheduler", 31)], none⟩ :=
  (c6_resume_loads exMgrSync exFsSched rfl).2 (by decide) (by decide)

/-- C1 counterexample: on the claim's literal input — run 0 holding epochs
0-2 for `model` and 0-1 for `optimizer`, nothing else, budget 3,
tracking exactly those two components — initialization raises
`NotADirectoryError` (the hard-coded `scheduler` directory is missing)
instead of reporting resume epoch 2 and run index 0. -/
theorem c1_counterexample :
    scan_experiment_dir exMgrMO exFsNoSched =
      ⟨exMgrMO, exFsNoSched, some Err.notADirectory⟩ := rfl

/-- C1 (amended): when the last run under the root is incomplete, the scan
keeps that run as current and computes the resume epoch as one plus the
minimum, over the three fixed directories `model`, `optimizer` and
`scheduler` (not the tracked components), of each directory's highest
checkpoint index (−1 for an empty directory). -/
theorem c1_amended_resume_epoch (m : Manager) (fs : FSNode) (r : String)
    (lm lo ls : List (Nat × Blob))
    (hne : fs.listNames ≠ [])
    (hr : lastSorted fs.listNames = r)
    (hm : resolve [r, "model"] fs = some (mkCompDir lm))
    (ho : resolve [r, "optimizer"] fs = some (mkCompDir lo))
    (hs : resolve [r, "scheduler"] fs = some (mkCompDir ls))
    (hltm : ∀ e ∈ lm.map Prod.fst, e < 100)
    (hlto : ∀ e ∈ lo.map Prod.fst, e < 100)
    (hlts : ∀ e ∈ ls.map Prod.fst, e < 100)
    (hincomplete :
      min (hiIdx lm) (min (hiIdx lo) (hiIdx ls)) ≠ (m.epochs_per_run : Int) - 1) :
    scan_experiment_dir m fs =
      ⟨{ m with
          current_run_dir_path := [r],
          start_epoch := min (hiIdx lm) (min (hiIdx lo) (hiIdx ls)) + 1 },
       fs, none⟩ := by
  have hgle : get_last_epoch_index m fs [r] =
      Except.ok (min (hiIdx lm) (min (hiIdx lo) (hiIdx ls))) :=
    get_last_epoch_index_mkCompDir hm ho hs hltm hlto hlts
  have hcomp : is_run_completed m fs [r] = Except.ok false := by
    rw [is_run_completed_of_ok hgle]
    simp [hincomplete]
  exact scan_incomplete hne hr hcomp hgle

/-- C1 witness (the amended example): with `scheduler` also holding epochs
0-1, initialization reports resume epoch 2 and keeps run 0 current. -/
theorem c1_witness :
    scan_experiment_dir exMgrMOS exFsSched =
      ⟨⟨["model", "optimizer", "scheduler"], 3, 2, ["run_00"]⟩, exFsSched, none⟩ :=
  c1_amended_resume_epoch exMgrMOS exFsSched "run_00"
    [(0, 10), (1, 11), (2, 12)] [(0, 20), (1, 21)] [(0, 30), (1, 31)]
    (by decide) (by decide) rfl rfl rfl (by decide) (by decide) (by decide) (by decide)

/-- C4 counterexample: with budget 3 and `model` as the only tracked
component, a run where every tracked component's directory contains the
final-epoch file `02.pth` is still reported incomplete (the hard-coded
`optimizer` and `scheduler` directories are empty). -/
theorem c4_counterexample :
    (exMgrM.modules.all (fun n =>
      (readFile? ["run_00", n, epochFileName ((exMgrM.epochs_per_run : Int) - 1)]
        exFsC4).isSome)) = true ∧
    is_run_completed exMgrM exFsC4 ["run_00"] = Except.ok false := ⟨rfl, rfl⟩

/-- C4 (amended): for budgets 1 ≤ B ≤ 100 and canonical run directories
whose epochs lie below the budget, a run is reported complete iff each of
the three fixed directories `model`, `optimizer`, `scheduler` (not the
tracked components) contains a checkpoint file for epoch B − 1; a missing
final-epoch file in any one of those three marks the run incomplete. -/
theorem c4_amended_completeness (m : Manager) (fs : FSNode) (p : List String)
    (lm lo ls : List (Nat × Blob))
    (hB1 : 1 ≤ m.epochs_per_run) (hB100 : m.epochs_per_run ≤ 100)
    (hm : resolve (p ++ ["model"]) fs = some (mkCompDir lm))
    (ho : resolve (p ++ ["optimizer"]) fs = some (mkCompDir lo))
    (hs : resolve (p ++ ["scheduler"]) fs = some (mkCompDir ls))
    (hltm : ∀ e ∈ lm.map Prod.fst, e < m.epochs_per_run)
    (hlto : ∀ e ∈ lo.map Prod.fst, e < m.epochs_per_run)
    (hlts : ∀ e ∈ ls.map Prod.fst, e < m.epochs_per_run) :
    (is_run_completed m fs p = Except.ok true ↔
      ((m.epochs_per_run - 1) ∈ lm.map Prod.fst ∧
       (m.epochs_per_run - 1) ∈ lo.map Prod.fst ∧
       (m.epochs_per_run - 1) ∈ ls.map Prod.fst)) := by
  have hgle : get_last_epoch_index m fs p =
      Except.ok (min (hiIdx lm) (min (hiIdx lo) (hiIdx ls))) :=
    get_last_epoch_index_mkCompDir hm ho hs
      (fun e he => lt_of_lt_of_le (hltm e he) hB100)
      (fun e he => lt_of_lt_of_le (hlto e he) hB100)
      (fun e he => lt_of_lt_of_le (hlts e he) hB100)
  rw [is_run_completed_of_ok hgle]
  have hlm := hiIdx_le hltm
  have hlo := hiIdx_le hlto
  have hls := hiIdx_le hlts
  constructor
  · intro h
    have hd : min (hiIdx lm) (min (hiIdx lo) (hiIdx ls)) = (m.epochs_per_run : Int) - 1 := by
      have := congrArg (fun x => x = Except.ok true) h
      by_contra hc
      simp [hc] at h
    have h1 : hiIdx lm = (m.epochs_per_run : Int) - 1 := by
      have := min_le_left (hiIdx lm) (min (hiIdx lo) (hiIdx ls))
      omega
    have h2 : hiIdx lo = (m.epochs_per_run : Int) - 1 := by
      have ha := min_le_right (hiIdx lm) (min (hiIdx lo) (hiIdx ls))
      have hb := min_le_left (hiIdx lo) (hiIdx ls)
      omega
    have h3 : hiIdx ls = (m.epochs_per_run : Int) - 1 := by
      have ha := min_le_right (hiIdx lm) (min (hiIdx lo) (hiIdx ls))
      have hb := min_le_right (hiIdx lo) (hiIdx ls)
      omega
    exact ⟨(hiIdx_eq_iff_mem hB1 hltm).mp h1, (hiIdx_eq_iff_mem hB1 hlto).mp h2,
      (hiIdx_eq_iff_mem hB1 hlts).mp h3⟩
  · rintro ⟨h1, h2, h3⟩
    have e1 := (hiIdx_eq_iff_mem hB1 hltm).mpr h1
    have e2 := (hiIdx_eq_iff_mem hB1 hlto).mpr h2
    have e3 := (hiIdx_eq_iff_mem hB1 hlts).mpr h3
    rw [e1, e2, e3]
    simp

/-- C4 witness: a run holding epochs 0-2 in each of the three fixed
directories is reported complete for budget 3. -/
theorem c4_witness : is_run_completed exMgrMOS exFsFull ["run_00"] = Except.ok true :=
  (c4_amended_completeness exMgrMOS exFsFull ["run_00"]
    [(0, 1), (1, 2), (2, 3)] [(0, 4), (1, 5), (2, 6)] [(0, 7), (1, 8), (2, 9)]
    (by decide) (by decide) rfl rfl rfl (by decide) (by decide) (by decide)).mpr
    (by decide)

/-- C7 counterexample: with `encoder` as the only tracked component and its
directory present under the last run, the scan still fails with
`NotADirectoryError` — the error does not track the tracked components'
directories. -/
theorem c7_counterexample :
    (exMgrEnc.modules.all (fun n => isDirB exFsEnc ["run_00", n])) = true ∧
    scan_experiment_dir exMgrEnc exFsEnc =
      ⟨exMgrEnc, exFsEnc, some Err.notADirectory⟩ := ⟨rfl, rfl⟩

/-- C7 (amended): on a non-empty root whose existing checkpoint files have
parseable names, the scan fails with `NotADirectoryError` exactly when one
of the three fixed sub-directories `model`, `optimizer`, `scheduler` (not
the tracked components') is not a directory under the last run; the
failure is raised immediately, leaving the manager and the tree exactly as
they were (nothing is retried or silently created). -/
theorem c7_amended_missing_dir (m : Manager) (fs : FSNode) (r : String)
    (hne : fs.listNames ≠ []) (hr : lastSorted fs.listNames = r)
    (hv1 : isValueErrB fs [r, "model"] = false)
    (hv2 : isValueErrB fs [r, "optimizer"] = false)
    (hv3 : isValueErrB fs [r, "scheduler"] = false) :
    ((scan_experiment_dir m fs).err = some Err.notADirectory ↔
      (isDirB fs [r, "model"] = false ∨ isDirB fs [r, "optimizer"] = false ∨
        isDirB fs [r, "scheduler"] = false)) ∧
    ((isDirB fs [r, "model"] = false ∨ isDirB fs [r, "optimizer"] = false ∨
        isDirB fs [r, "scheduler"] = false) →
      scan_experiment_dir m fs = ⟨m, fs, some Err.notADirectory⟩) := by
  have hiff := get_last_epoch_index_nad_iff m fs [r] hv1 hv2 hv3
  have hback : (isDirB fs [r, "model"] = false ∨ isDirB fs [r, "optimizer"] = false ∨
      isDirB fs [r, "scheduler"] = false) →
      scan_experiment_dir m fs = ⟨m, fs, some Err.notADirectory⟩ := by
    intro h
    have hg : get_last_epoch_index m fs [r] = Except.error Err.notADirectory := hiff.mpr h
    exact scan_err hne hr (is_run_completed_of_err hg)
  refine ⟨⟨?_, fun h => by rw [hback h]⟩, hback⟩
  intro herr
  by_contra hc
  push_neg at hc
  obtain ⟨hc1, hc2, hc3⟩ := hc
  have hd1 : isDirB fs [r, "model"] = true := by
    cases hx : isDirB fs [r, "model"] with
    | true => rfl
    | false => exact absurd hx hc1
  have hd2 : isDirB fs [r, "optimizer"] = true := by
    cases hx : isDirB fs [r, "optimizer"] with
    | true => rfl
    | false => exact absurd hx hc2
  have hd3 : isDirB fs [r, "scheduler"] = true := by
    cases hx : isDirB fs [r, "scheduler"] with
    | true => rfl
    | false => exact absurd hx hc3
  obtain ⟨v1, hp1⟩ := ((priv_get_trichotomy hv1).resolve_left (fun hh => by
    rw [hd1] at hh; cases hh.1)).2
  obtain ⟨v2, hp2⟩ := ((priv_get_trichotomy hv2).resolve_left (fun hh => by
    rw [hd2] at hh; cases hh.1)).2
  obtain ⟨v3, hp3⟩ := ((priv_get_trichotomy hv3).resolve_left (fun hh => by
    rw [hd3] at hh; cases hh.1)).2
  have hg : get_last_epoch_index m fs [r] = Except.ok (min v1 (min v2 v3)) := by
    unfold get_last_epoch_index
    simp only [List.cons_append, List.nil_append]
    rw [hp1, hp2, hp3]
    rfl
  by_cases hb : min v1 (min v2 v3) = (m.epochs_per_run : Int) - 1
  · have hcomp : is_run_completed m fs [r] = Except.ok true := by
      rw [is_run_completed_of_ok hg]
      simp [hb]
    cases hi : get_run_index_from_path [r] with
    | none =>
      rw [scan_nonempty_cases m fs r hne hr, hcomp, hi] at herr
      injection herr with herr
      cases herr
    | some i =>
      rw [scan_complete hne hr hcomp hi] at herr
      obtain ⟨bs, rfl⟩ := dir_of_listNames_ne_nil hne
      exact make_run_dir_err_ne_nad m bs (i + 1) herr
  · have hcomp : is_run_completed m fs [r] = Except.ok false := by
      rw [is_run_completed_of_ok hg]
      simp [hb]
    rw [scan_incomplete hne hr hcomp hg] at herr
    cases herr

/-- C7 witness: a run missing the `model` directory makes the scan fail
with `NotADirectoryError` at once, leaving the tree untouched. -/
theorem c7_witness :
    scan_experiment_dir exMgrMOS exFsEnc =
      ⟨exMgrMOS, exFsEnc, some Err.notADirectory⟩ :=
  (c7_amended_missing_dir exMgrMOS exFsEnc "run_00" (by decide) (by decide)
    rfl rfl rfl).2 (Or.inl rfl)

/-- C8: the resume-epoch and completeness computations depend only on the
run directory's three fixed sub-paths `model`, `optimizer`, `scheduler`
and the epoch budget — never on the tracked component names (`m₁` and
`m₂` have arbitrary, unrelated module lists); and the scan errors when
one of those three fixed directories is absent, whatever the tracked
components are. -/
theorem c8_fixed_three_dirs (m₁ m₂ : Manager) (fs₁ fs₂ : FSNode) (p : List String)
    (r : String) :
    ((resolve (p ++ ["model"]) fs₁ = resolve (p ++ ["model"]) fs₂ →
      resolve (p ++ ["optimizer"]) fs₁ = resolve (p ++ ["optimizer"]) fs₂ →
      resolve (p ++ ["scheduler"]) fs₁ = resolve (p ++ ["scheduler"]) fs₂ →
      get_last_epoch_index m₁ fs₁ p = get_last_epoch_index m₂ fs₂ p ∧
      (m₁.epochs_per_run = m₂.epochs_per_run →
        is_run_completed m₁ fs₁ p = is_run_completed m₂ fs₂ p))) ∧
    (fs₁.listNames ≠ [] → lastSorted fs₁.listNames = r →
      isDirB fs₁ [r, "model"] = false →
      scan_experiment_dir m₁ fs₁ = ⟨m₁, fs₁, some Err.notADirectory⟩) := by
  constructor
  · intro h1 h2 h3
    have hg : get_last_epoch_index m₁ fs₁ p = get_last_epoch_index m₂ fs₂ p := by
      unfold get_last_epoch_index priv_get_last_epoch_index
      rw [h1, h2, h3]
    refine ⟨hg, fun hB => ?_⟩
    unfold is_run_completed is_checkpoint_dir_full
    rw [hg, hB]
  · intro hne hr hmiss
    have hpm : priv_get_last_epoch_index fs₁ [r, "model"] = Except.error Err.notADirectory :=
      priv_get_of_not_isDir hmiss
    have hg : get_last_epoch_index m₁ fs₁ [r] = Except.error Err.notADirectory := by
      unfold get_last_epoch_index
      simp only [List.cons_append, List.nil_append]
      rw [hpm]
      rfl
    exact scan_err hne hr (is_run_completed_of_err hg)

/-- C8 witness: a manager tracking only `encoder` and one tracking the
three fixed names compute the same last-epoch result on trees that agree
on the three fixed sub-paths, and the `encoder`-only scan errors on the
missing `model` directory. -/
theorem c8_witness :
    get_last_epoch_index exMgrEnc exFsEnc ["run_00"] =
      get_last_epoch_index exMgrMOS exFsEmptyRun ["run_00"] ∧
    scan_experiment_dir exMgrEnc exFsEnc =
      ⟨exMgrEnc, exFsEnc, some Err.notADirectory⟩ :=
  have h := c8_fixed_three_dirs exMgrEnc exMgrMOS exFsEnc exFsEmptyRun ["run_00"] "run_00"
  ⟨(h.1 rfl rfl rfl).1, h.2 (by decide) (by decide) rfl⟩

/-- C10 counterexample: a root holding the single entry `run_-1` with a
complete run (budget 3): the scan parses its index as −1 and creates a
fresh run 0 even though the root does not contain zero entries. -/
theorem c10_counterexample :
    (FSNode.listNames exFsNeg).length = 1 ∧
    (scan_experiment_dir exMgrMOS exFsNeg).err = none ∧
    ((scan_experiment_dir exMgrMOS exFsNeg).manager).current_run_dir_path = ["run_00"] ∧
    resolve ["run_00"] ((scan_experiment_dir exMgrMOS exFsNeg).fs) =
      some (FSNode.dir [("model", FSNode.dir []), ("optimizer", FSNode.dir []),
        ("scheduler", FSNode.dir [])]) := ⟨rfl, rfl, rfl, rfl⟩

/-- C10 (amended): run discovery counts every entry of the root as a run;
a fresh run 0 is created when the root is empty, and otherwise the
lexicographically greatest entry — whatever its name or kind — is taken
as the last run, whose completeness and resume epoch are then inspected
(with a new run at parsed-index + 1 created on completeness, which is run
0 again exactly in the anomalous case where the greatest entry parses to
index −1). -/
theorem c10_amended_run_discovery (m : Manager) (fs : FSNode) :
    get_number_of_runs m fs = fs.listNames.length ∧
    (fs = FSNode.dir [] → m.modules.Nodup →
      scan_experiment_dir m fs =
        ⟨{ m with start_epoch := 0, current_run_dir_path := ["run_00"] },
         FSNode.dir [("run_00", FSNode.dir (m.modules.map (fun n => (n, FSNode.dir []))))],
         none⟩) ∧
    (fs.listNames ≠ [] →
      lastSorted fs.listNames ∈ fs.listNames ∧
      (∀ n ∈ fs.listNames, strLe n (lastSorted fs.listNames) = true) ∧
      (∀ e, is_run_completed m fs [lastSorted fs.listNames] = Except.error e →
        scan_experiment_dir m fs = ⟨m, fs, some e⟩) ∧
      (∀ v, is_run_completed m fs [lastSorted fs.listNames] = Except.ok false →
        get_last_epoch_index m fs [lastSorted fs.listNames] = Except.ok v →
        scan_experiment_dir m fs =
          ⟨{ m with
              current_run_dir_path := [lastSorted fs.listNames],
              start_epoch := v + 1 },
           fs, none⟩) ∧
      (∀ i, is_run_completed m fs [lastSorted fs.listNames] = Except.ok true →
        get_run_index_from_path [lastSorted fs.listNames] = some i →
        scan_experiment_dir m fs = make_run_dir m fs (i + 1))) := by
  refine ⟨rfl, ?_, ?_⟩
  · rintro rfl hnd
    rw [scan_empty]
    have hspec := make_run_dir_spec m [] 0 rfl hnd
    have hrn : runDirName (0 : Int) = "run_00" := rfl
    rw [hrn] at hspec
    rw [hspec]
    rfl
  · intro hne
    exact ⟨lastSorted_mem hne, le_lastSorted hne,
      fun e hc => scan_err hne rfl hc,
      fun v hc hg => scan_incomplete hne rfl hc hg,
      fun i hc hi => scan_complete hne rfl hc hi⟩

/-- C10 witness: on the `run_-1` root, the lexicographically greatest (and
only) entry is inspected, found complete, and a new run at index
−1 + 1 = 0 is created. -/
theorem c10_witness :
    scan_experiment_dir exMgrMOS exFsNeg = make_run_dir exMgrMOS exFsNeg (-1 + 1) :=
  (((c10_amended_run_discovery exMgrMOS exFsNeg).2.2 (by decide)).2.2.2.2) (-1) rfl rfl
